import Mathlib

/-!
Verification development for the datalab repository (Rust).

The backend (src-backend) is shallowly embedded: records are modeled as a
JSON value type, text as lists of Unicode scalar values (`List Char`) with
explicit UTF-8 byte counts, and every fallible or panicking Rust path as an
`Option`/`Except` result.  External library behaviour that the repository
relies on is modeled explicitly at its interface:
  * `serde_json` compact serialization is embedded as `serializeJson`
    (short escapes for the usual control characters, `\u00XX` for the rest);
  * `xxhash` (`xxh3_64`) is an abstract token-hash parameter `hashTok`;
  * `rand`'s `StdRng`/`shuffle` is driven by an abstract draw stream
    `g : Nat → Nat` (each theorem quantifies over every stream, which covers
    the concrete seeded generator);
  * Rust `HashMap`/`HashSet` iteration order is an explicit order parameter
    wherever the code observes it; where only keyed lookups occur the
    embedding needs no such parameter.
Rust `f32`/`f64` arithmetic on scores and percentages is modeled with `Rat`;
the rounding used (`round` = half away from zero for the nonnegative values
that occur) agrees with the `f32` reference on all inputs exercised here.
-/

set_option maxRecDepth 16384

namespace Datalab

/-- Text as a list of Unicode scalar values (Rust `String` / `&str`). -/
abbrev Str := List Char

/-- UTF-8 byte length of a text (Rust `str::len`). -/
def strBytes (s : Str) : Nat := (s.map Char.utf8Size).sum

/-- Model of `serde_json::Value` (numbers restricted to integers; the
repository never computes with record numbers, it only re-serializes them). -/
inductive Json where
  | null : Json
  | bool (b : Bool) : Json
  | num (n : Int) : Json
  | str (s : Str) : Json
  | arr (items : List Json) : Json
  | obj (entries : List (Str × Json)) : Json

/-- One hex digit (lower case), for `\u00XX` escapes (serde's digit table). -/
def hexDigit (n : Nat) : Char := ("0123456789abcdef".toList).getD n 'f'

/-- One decimal digit character. -/
def digitChar (n : Nat) : Char := ("0123456789".toList).getD n '0'

/-- Decimal digits of a natural number, most significant first. -/
def natDigitsAux : Nat → List Char → List Char
  | 0, acc => acc
  | n + 1, acc => natDigitsAux ((n + 1) / 10) (digitChar ((n + 1) % 10) :: acc)

/-- Decimal text of a natural number. -/
def natDigits (n : Nat) : List Char :=
  if n = 0 then ['0'] else natDigitsAux n []

/-- Decimal text of an integer (serde's integer formatting). -/
def intStr : Int → Str
  | Int.ofNat m => natDigits m
  | Int.negSucc m => '-' :: natDigits (m + 1)

/-- `serde_json` string escaping: short escapes for `"` `\` and the common
control characters, `\u00XX` for the remaining control characters, all other
characters unchanged. -/
def escapeChar (c : Char) : Str :=
  if c = '"' then ['\\', '"']
  else if c = '\\' then ['\\', '\\']
  else if c = '\n' then ['\\', 'n']
  else if c = '\r' then ['\\', 'r']
  else if c = '\t' then ['\\', 't']
  else if c = Char.ofNat 8 then ['\\', 'b']
  else if c = Char.ofNat 12 then ['\\', 'f']
  else if c.toNat < 32 then
    ['\\', 'u', '0', '0', hexDigit (c.toNat / 16), hexDigit (c.toNat % 16)]
  else [c]

/-- Serialized JSON string literal. -/
def serializeStr (s : Str) : Str := '"' :: (s.map escapeChar).flatten ++ ['"']

mutual

/-- Compact (no-whitespace) JSON serialization, as `serde_json::to_vec`
produces for the store file and as `serde_json::to_string` renders values. -/
def serializeJson : Json → Str
  | Json.null => ['n', 'u', 'l', 'l']
  | Json.bool true => ['t', 'r', 'u', 'e']
  | Json.bool false => ['f', 'a', 'l', 's', 'e']
  | Json.num n => intStr n
  | Json.str s => serializeStr s
  | Json.arr items => '[' :: serializeArr items ++ [']']
  | Json.obj entries => '{' :: serializeObj entries ++ ['}']

/-- Comma-separated serialization of array elements. -/
def serializeArr : List Json → Str
  | [] => []
  | [x] => serializeJson x
  | x :: y :: rest => serializeJson x ++ ',' :: serializeArr (y :: rest)

/-- Comma-separated serialization of object entries. -/
def serializeObj : List (Str × Json) → Str
  | [] => []
  | [(k, v)] => serializeStr k ++ ':' :: serializeJson v
  | (k, v) :: e :: rest =>
      serializeStr k ++ ':' :: serializeJson v ++ ',' :: serializeObj (e :: rest)

end

/-- Structural induction over the nested `Json` type. -/
def jsonInd (P : Json → Prop)
    (hnull : P Json.null) (hbool : ∀ b, P (Json.bool b))
    (hnum : ∀ n, P (Json.num n)) (hstr : ∀ s, P (Json.str s))
    (harr : ∀ items, (∀ x ∈ items, P x) → P (Json.arr items))
    (hobj : ∀ entries, (∀ kv ∈ entries, P kv.2) → P (Json.obj entries)) :
    ∀ j, P j
  | Json.null => hnull
  | Json.bool b => hbool b
  | Json.num n => hnum n
  | Json.str s => hstr s
  | Json.arr items =>
      harr items (fun x hx =>
        have : sizeOf x < sizeOf (Json.arr items) := by
          have h1 := List.sizeOf_lt_of_mem hx
          simp only [Json.arr.sizeOf_spec]
          omega
        jsonInd P hnull hbool hnum hstr harr hobj x)
  | Json.obj entries =>
      hobj entries (fun kv hkv =>
        have : sizeOf kv.2 < 1 + sizeOf entries := by
          have h1 := List.sizeOf_lt_of_mem hkv
          have h2 : sizeOf kv.2 < sizeOf kv := by
            obtain ⟨k, v⟩ := kv
            simp
          omega
        jsonInd P hnull hbool hnum hstr harr hobj kv.2)
  termination_by j => sizeOf j

/-- `records.rs::value_to_string`: a string maps to itself, null to the empty
string, everything else to its canonical JSON text. -/
def value_to_string (value : Json) : Str :=
  match value with
  | Json.str text => text
  | Json.null => []
  | other => serializeJson other

/-- Byte-based prefix of a text (Rust `text[..limit]`): `none` when `limit`
is not a character boundary, in which case the Rust slice panics. -/
def byteTake : Str → Nat → Option Str
  | _, 0 => some []
  | [], _ + 1 => none
  | c :: rest, n + 1 =>
      if c.utf8Size ≤ n + 1 then
        (byteTake rest (n + 1 - c.utf8Size)).map (fun t => c :: t)
      else none

/-- `records.rs::truncate_text`: texts of byte length at most `limit` pass
through; longer texts are sliced at `limit` bytes (panic — `none` — when the
slice boundary falls inside a multi-byte character) with `"..."` appended. -/
def truncate_text (text : Str) (limit : Nat) : Option Str :=
  if strBytes text ≤ limit then some text
  else (byteTake text limit).map (fun p => p ++ ("...".toList))

/-- Lowercasing of a text, Rust `str::to_lowercase` (ASCII-faithful model). -/
def lowerStr (s : Str) : Str := s.map Char.toLower

/-- `serde_json::Value::get` on a field name: object lookup, `none` off
objects. -/
def jsonGet (record : Json) (key : Str) : Option Json :=
  match record with
  | Json.obj entries => (entries.find? (fun kv => kv.1 == key)).map (fun kv => kv.2)
  | _ => none

/-- `records.rs::extract_field_value`: case-sensitive lookup first, then a
single lowercase fallback. -/
def extract_field_value (record : Json) (field : Option Str) : Option Json :=
  field.bind (fun name =>
    (jsonGet record name).orElse (fun _ => jsonGet record (lowerStr name)))

/-- `records.rs::extract_text_value`. -/
def extract_text_value (record : Json) (field : Option Str) : Option Str :=
  (extract_field_value record field).map value_to_string

/-- `models.rs::FieldMap`. -/
structure FieldMap where
  instruction : Option Str := none
  output : Option Str := none
  code : Option Str := none
  category : Option Str := none
  score : Option Str := none
deriving DecidableEq

/-- `models.rs::PreviewField`. -/
structure PreviewField where
  name : Str
  value : Str
  kind : Str
deriving DecidableEq

/-- Rust `str::trim` (whitespace at both ends). -/
def trimStr (s : Str) : Str :=
  ((s.dropWhile Char.isWhitespace).reverse.dropWhile Char.isWhitespace).reverse

/-- The `push_field` closure of `records.rs::build_preview_fields`: skip
whitespace-only values, otherwise append the 480-byte-truncated value
(`none` when the truncation panics). -/
def pushField (fields : List PreviewField) (name : Str) (value : Str)
    (kind : Str) : Option (List PreviewField) :=
  if trimStr value = [] then some fields
  else (truncate_text value 480).map
    (fun tv => fields ++ [{ name := name, value := tv, kind := kind }])

/-- One role step of `build_preview_fields`: when the role is mapped and the
record yields a text, mark the field name used and push the preview field. -/
def previewRole (record : Json) (mapped : Option Str) (kind : Str)
    (acc : List PreviewField × List Str) :
    Option (List PreviewField × List Str) :=
  match mapped with
  | none => some acc
  | some name =>
      match extract_text_value record (some name) with
      | none => some acc
      | some value =>
          (pushField acc.1 name value kind).map (fun fs => (fs, acc.2 ++ [name]))

/-- `records.rs::build_preview_fields`; `none` models a panic inside
`truncate_text`. -/
def build_preview_fields (record : Json) (fm : FieldMap) :
    Option (List PreviewField) := do
  let acc0 : List PreviewField × List Str := ([], [])
  let acc1 ← previewRole record fm.instruction ("text".toList) acc0
  let acc2 ← previewRole record fm.output ("text".toList) acc1
  let acc3 ← previewRole record fm.code ("code".toList) acc2
  let acc4 ← previewRole record fm.category ("meta".toList) acc3
  let acc5 ← previewRole record fm.score ("meta".toList) acc4
  let (fields, used) := acc5
  if fields = [] then
    match record with
    | Json.obj entries =>
        (entries.take 2).foldlM
          (fun fs kv =>
            if used.contains kv.1 then pure fs
            else
              (truncate_text (value_to_string kv.2) 480).map
                (fun tv => fs ++ [{ name := kv.1, value := tv, kind := ("text".toList) }]))
          fields
    | _ => pure fields
  else
    pure fields

/-- `records.rs::text_length`: Unicode scalar count. -/
def text_length (value : Str) : Nat := value.length

/-- `records.rs::get_length_text`. -/
def get_length_text (record : Json) (fm : FieldMap) (scope : Str) : Str :=
  if scope = ("output".toList) then
    (extract_text_value record fm.output).getD []
  else if scope = ("combined".toList) then
    let instruction := (extract_text_value record fm.instruction).getD []
    let output := (extract_text_value record fm.output).getD []
    instruction ++ '\n' :: output
  else
    (extract_text_value record fm.instruction).getD []

/-- `records.rs::tokenize`: split on non-alphanumeric characters, keep pieces
of byte length above 2, lowercase them. -/
def tokenize (text : Str) : List Str :=
  ((text.splitOnP (fun c => !c.isAlphanum)).filter
    (fun token => 2 < strBytes token)).map lowerStr

/-- `records.rs::simhash`, with the external `xxh3_64` token hash abstracted
as `hashTok` (a 64-bit hash: only its low 64 bits are consulted). -/
def simhash (hashTok : Str → Nat) (text : Str) : Nat :=
  let toks := tokenize text
  let weight : Nat → Int := fun idx =>
    (toks.map (fun t => if (hashTok t >>> idx) % 2 = 1 then (1 : Int) else -1)).sum
  (List.range 64).foldl (fun out idx => if 0 < weight idx then out ||| (1 <<< idx) else out) 0

/-- Population count (number of set bits) of a natural number, as
`u64::count_ones` computes on machine words. -/
def natPopCount : Nat → Nat
  | 0 => 0
  | n + 1 => (n + 1) % 2 + natPopCount ((n + 1) / 2)

/-- `records.rs::hamming_distance`: popcount of the XOR. -/
def hamming_distance (a b : Nat) : Nat := natPopCount (Nat.xor a b)

/-- `models.rs::FilterConfig` (defaults as in `impl Default`). -/
structure FilterConfig where
  require_fields : List Str := []
  min_length : Option Nat := none
  max_length : Option Nat := none
  include_keywords : List Str := []
  exclude_keywords : List Str := []
  category_field : Option Str := none
  categories : List Str := []
  dedupe_exact : Bool := true
  dedupe_fuzzy : Bool := false
  length_scope : Str := ("instruction".toList)
  keyword_case_sensitive : Bool := false
deriving DecidableEq

/-- `models.rs::FilterSummary`. -/
structure FilterSummary where
  total_count : Nat
  filtered_count : Nat
  duplicates_removed : Nat
deriving DecidableEq

/-- Effective required fields: `require_fields` verbatim when non-empty, else
the mapped instruction and output fields. -/
def requiredFields (cfg : FilterConfig) (fm : FieldMap) : List Str :=
  if cfg.require_fields = [] then fm.instruction.toList ++ fm.output.toList
  else cfg.require_fields

/-- Keyword normalization: lowercase both keyword lists unless
`keyword_case_sensitive`. -/
def normKeywords (cfg : FilterConfig) : List Str × List Str :=
  if cfg.keyword_case_sensitive then (cfg.include_keywords, cfg.exclude_keywords)
  else (cfg.include_keywords.map lowerStr, cfg.exclude_keywords.map lowerStr)

/-- Category field resolution: config override first, else the mapped
category field. -/
def categoryFieldOf (cfg : FilterConfig) (fm : FieldMap) : Option Str :=
  cfg.category_field.orElse (fun _ => fm.category)

/-- The lowercased category filter set (a `HashSet` in the source; only
membership is observed, so a list is an exact model). -/
def categoryFilterOf (cfg : FilterConfig) : List Str := cfg.categories.map lowerStr

/-- Presence predicate: each required field must exist, be non-null, and a
string value must not be whitespace-only (direct `record.get`, no lowercase
fallback). -/
def passesPresence (required : List Str) (record : Json) : Bool :=
  required.all (fun field =>
    match jsonGet record field with
    | none => false
    | some Json.null => false
    | some (Json.str text) => !(trimStr text == [])
    | some _ => true)

/-- Length bounds check (inclusive, when configured). -/
def lengthOk (cfg : FilterConfig) (len : Nat) : Bool :=
  (match cfg.min_length with | none => true | some m => m ≤ len) &&
  (match cfg.max_length with | none => true | some m => len ≤ m)

/-- Substring containment, Rust `str::contains`. -/
def containsSub (hay needle : Str) : Bool := decide (needle <:+: hay)

/-- Exact-dedup normalization: whitespace-collapsed, single-space joined,
lowercased. -/
def exactNormalize (s : Str) : Str :=
  lowerStr (List.intercalate [' '] ((s.splitOnP Char.isWhitespace).filter (fun w => w ≠ [])))

/-- The four 16-bit segments of a 64-bit SimHash. -/
def fuzzySegments (hash : Nat) : List Nat :=
  [hash % 65536, (hash >>> 16) % 65536, (hash >>> 32) % 65536, (hash >>> 48) % 65536]

/-- Outcome of the per-record predicate chain of
`filters.rs::apply_filters_inner`. -/
inductive Outcome where
  | kept
  | droppedRequired
  | droppedLength
  | droppedKeyword
  | droppedCategory
  | droppedExact
  | droppedFuzzy
deriving DecidableEq

/-- Mutable state threaded through the filter loop.  `exactSeen` models the
`HashSet<String>` (only insertion and membership are observed), and
`fuzzyBuckets` the `HashMap<u16, Vec<u64>>` inverted index (only keyed lookup
and keyed push are observed), so neither needs an iteration-order parameter. -/
structure FilterState where
  exactSeen : List Str := []
  fuzzyBuckets : Nat → List Nat := fun _ => []
  filtered : List Nat := []
  dups : Nat := 0
  progress : List (Nat × Nat) := []

/-- Keeping a record: append its index and fire the progress callback when
the source index is a multiple of 1000. -/
def keepRecord (recordCount : Nat) (st : FilterState) (idx : Nat) :
    FilterState × Outcome :=
  let st1 := { st with filtered := st.filtered ++ [idx] }
  let st2 :=
    if idx % 1000 = 0 then { st1 with progress := st1.progress ++ [(idx, recordCount)] }
    else st1
  (st2, Outcome.kept)

/-- Fuzzy-dedup phase (runs after exact dedup): a record is a duplicate iff
some previously inserted hash stored under one of its four segment keys is
within Hamming distance 3; otherwise its hash is pushed under all four
segment keys. -/
def fuzzyPhase (hashTok : Str → Nat) (cfg : FilterConfig) (recordCount : Nat)
    (st : FilterState) (idx : Nat) (instructionText : Str) :
    FilterState × Outcome :=
  if cfg.dedupe_fuzzy && !(instructionText == []) then
    let hash := simhash hashTok instructionText
    let segs := fuzzySegments hash
    if segs.any (fun s => (st.fuzzyBuckets s).any (fun c => hamming_distance c hash ≤ 3)) then
      ({ st with dups := st.dups + 1 }, Outcome.droppedFuzzy)
    else
      let buckets := segs.foldl
        (fun bk s => fun t => if t = s then bk t ++ [hash] else bk t) st.fuzzyBuckets
      keepRecord recordCount { st with fuzzyBuckets := buckets } idx
  else keepRecord recordCount st idx

/-- The stateless front of the predicate chain — presence, length, keywords,
category membership — returning the dropping outcome, or `none` when the
record proceeds to the dedup stages. -/
def preDedupCheck (cfg : FilterConfig) (fm : FieldMap) (record : Json) :
    Option Outcome :=
  let required := requiredFields cfg fm
  if !passesPresence required record then some Outcome.droppedRequired
  else
    let lengthText := get_length_text record fm cfg.length_scope
    if !lengthOk cfg (text_length lengthText) then some Outcome.droppedLength
    else
      let kw := normKeywords cfg
      let keywordText := if cfg.keyword_case_sensitive then lengthText else lowerStr lengthText
      if !(kw.1.all (fun k => containsSub keywordText k)) then some Outcome.droppedKeyword
      else if kw.2.any (fun k => containsSub keywordText k) then some Outcome.droppedKeyword
      else
        let catOk :=
          match categoryFieldOf cfg fm with
          | none => true
          | some cf =>
              if categoryFilterOf cfg = [] then true
              else
                let catValue := lowerStr (((jsonGet record cf).map value_to_string).getD [])
                (categoryFilterOf cfg).contains catValue
        if !catOk then some Outcome.droppedCategory
        else none

/-- One record of the predicate chain (presence, length, keywords, category,
exact dedup, fuzzy dedup, keep), returning the updated state and the record's
outcome. -/
def filterStep (hashTok : Str → Nat) (cfg : FilterConfig) (fm : FieldMap)
    (recordCount : Nat) (st : FilterState) (idx : Nat) (record : Json) :
    FilterState × Outcome :=
  match preDedupCheck cfg fm record with
  | some o => (st, o)
  | none =>
      let instructionText := (extract_text_value record fm.instruction).getD []
      if cfg.dedupe_exact && !(instructionText == []) then
        let normalized := exactNormalize instructionText
        if normalized ∈ st.exactSeen then
          ({ st with dups := st.dups + 1 }, Outcome.droppedExact)
        else
          fuzzyPhase hashTok cfg recordCount
            { st with exactSeen := normalized :: st.exactSeen } idx instructionText
      else fuzzyPhase hashTok cfg recordCount st idx instructionText

/-- The filter loop over the parsed store lines, also collecting the trace of
per-record outcomes.  The store-file lines are exactly the serialized records
(never blank, always parseable — the store invariant), so the loop is modeled
directly over the parsed records; cancellation aborts a run without a result
and is omitted from this completed-run model. -/
def runFilter (hashTok : Str → Nat) (cfg : FilterConfig) (fm : FieldMap)
    (recordCount : Nat) : FilterState → Nat → List Json →
    FilterState × List (Nat × Outcome)
  | st, _, [] => (st, [])
  | st, idx, r :: rest =>
      let so := filterStep hashTok cfg fm recordCount st idx r
      let ft := runFilter hashTok cfg fm recordCount so.1 (idx + 1) rest
      (ft.1, (idx, so.2) :: ft.2)

/-- `filters.rs::apply_filters_inner` (completed run): the kept ids, the
summary, and the list of progress-callback invocations. -/
def apply_filters_inner (hashTok : Str → Nat) (cfg : FilterConfig)
    (fm : FieldMap) (records : List Json) :
    (List Nat × FilterSummary) × List (Nat × Nat) :=
  let st := (runFilter hashTok cfg fm records.length {} 0 records).1
  ((st.filtered,
    { total_count := records.length
      filtered_count := st.filtered.length
      duplicates_removed := st.dups }),
   st.progress)

/-- `models.rs::DistillConfig` (defaults as in `impl Default`). -/
structure DistillConfig where
  target_count : Option Nat := none
  target_percent : Option Rat := some 10
  strategy : Str := ("diversity".toList)
  random_seed : Option Nat := none
  preserve_category_balance : Bool := false
deriving DecidableEq

/-- `models.rs::DistillSummary`. -/
structure DistillSummary where
  total_count : Nat
  selected_count : Nat
  removed_count : Nat
deriving DecidableEq

/-- `distill.rs::RecordMeta` (`f64` score modeled as `Rat`). -/
structure RecordMeta where
  id : Nat
  category : Option Str
  score : Rat
  signature : Nat
deriving DecidableEq

/-- `distill.rs::build_record_meta`, with Rust's `str::parse::<f64>` (core
library code) abstracted as `parseScore`. -/
def build_record_meta (parseScore : Str → Option Rat) (hashTok : Str → Nat)
    (record : Json) (id : Nat) (fm : FieldMap) (strategy : Str) : RecordMeta :=
  { id := id
    category := extract_text_value record fm.category
    score := ((extract_text_value record fm.score).bind parseScore).getD 0
    signature :=
      if strategy = ("diversity".toList) then
        simhash hashTok ((extract_text_value record fm.instruction).getD [])
      else 0 }

/-- Model of `rand`'s Fisher–Yates `shuffle`, driven by an abstract draw
stream `g` consumed from position `pos`; returns the shuffled list and the
next stream position.  Quantifying over every `g` covers the concrete seeded
`StdRng`, whose draws are some fixed such stream. -/
def fyShuffle (g : Nat → Nat) (pos : Nat) (l : List α) : List α × Nat :=
  match l with
  | [] => ([], pos)
  | a :: t =>
      let j := g pos % (a :: t).length
      have hj : j < (a :: t).length := Nat.mod_lt _ (Nat.succ_pos _)
      let next := fyShuffle g (pos + 1) ((a :: t).eraseIdx j)
      ((a :: t).get ⟨j, hj⟩ :: next.1, next.2)
  termination_by l.length
  decreasing_by
    have hlt : g pos % (t.length + 1) < t.length + 1 := Nat.mod_lt _ (Nat.succ_pos _)
    simp only [List.length_eraseIdx, List.length_cons]
    rw [if_pos hlt]
    omega

/-- Stable sort of metas by score descending (`sort_by` with the reversed
`partial_cmp`; ties keep arrival order — insertion sort is stable for this
reflexive comparator, so it computes the same list Rust's stable sort does). -/
def sortByScoreDesc (l : List RecordMeta) : List RecordMeta :=
  l.insertionSort (fun a b => b.score ≤ a.score)

/-- Ascending sort of ids (`sort_unstable` on `usize`; on a total order every
sort computes the same list). -/
def sortAsc (l : List Nat) : List Nat := l.insertionSort (· ≤ ·)

/-- Rust `f32::round() as usize` for the nonnegative values occurring here:
round half away from zero, negative results saturating to zero. -/
def ratRoundUsize (q : Rat) : Nat := (round q).toNat

/-- `round((num/den) · 1)` on natural numbers (half away from zero):
the allocation formula `((count as f32 / total as f32) * target as f32)
.round()` computed exactly, as `round(count·target/total)`. -/
def natRoundDiv (num den : Nat) : Nat := (2 * num + den) / (2 * den)

/-- Target size: `target_count`, else `round(percent/100 · total)`, else
`round(0.10 · total)`, clamped to `[1, total]`.  (The caller guards
`total = 0`, on which the Rust `clamp` would panic; this model returns 0.) -/
def computeTarget (config : DistillConfig) (total : Nat) : Nat :=
  let t :=
    match config.target_count with
    | some c => c
    | none =>
        match config.target_percent with
        | some p => ratRoundUsize (p / 100 * total)
        | none => ratRoundUsize (1 / 10 * total)
  min (max t 1) total

/-- Diversity bucket key: the high 12 bits of the 64-bit signature. -/
def bucketKey (m : RecordMeta) : Nat := m.signature >>> 52

/-- The diversity `HashMap<u16, Vec<&RecordMeta>>`, materialized in the
iteration order `κ` of its keys (per-key contents keep arrival order). -/
def bucketsFor (κ : List Nat) (metas : List RecordMeta) :
    List (Nat × List RecordMeta) :=
  κ.map (fun k => (k, metas.filter (fun m => bucketKey m == k)))

/-- Per-bucket preparation in iteration order: sort by score descending, then
shuffle, threading the rng stream position. -/
def prepBuckets (g : Nat → Nat) :
    Nat → List (Nat × List RecordMeta) → List (Nat × List RecordMeta) × Nat
  | pos, [] => ([], pos)
  | pos, (k, l) :: rest =>
      let sh := fyShuffle g pos (sortByScoreDesc l)
      let pr := prepBuckets g sh.2 rest
      ((k, sh.1) :: pr.1, pr.2)

/-- `Vec::pop`: remove and return the last element. -/
def vecPop : List α → Option (α × List α)
  | [] => none
  | [a] => some (a, [])
  | a :: b :: t => (vecPop (b :: t)).map (fun xr => (xr.1, a :: xr.2))

/-- Pop one meta from the bucket stored under `key` (first matching entry). -/
def popBucket : List (Nat × List RecordMeta) → Nat →
    Option RecordMeta × List (Nat × List RecordMeta)
  | [], _ => (none, [])
  | (k, l) :: rest, key =>
      if k = key then
        match vecPop l with
        | none => (none, (k, l) :: rest)
        | some ml => (some ml.1, (k, ml.2) :: rest)
      else
        let pr := popBucket rest key
        (pr.1, (k, l) :: pr.2)

/-- One round-robin pass over the shuffled key order: pop one meta per key,
appending ids, stopping early once `target` is reached; the flag records
whether any bucket yielded an item. -/
def onePass (bkts : List (Nat × List RecordMeta)) (keys : List Nat)
    (target : Nat) (acc : List Nat) :
    List (Nat × List RecordMeta) × List Nat × Bool :=
  match keys with
  | [] => (bkts, acc, false)
  | key :: rest =>
      match popBucket bkts key with
      | (some m, bkts2) =>
          let acc2 := acc ++ [m.id]
          if target ≤ acc2.length then (bkts2, acc2, true)
          else
            let r := onePass bkts2 rest target acc2
            (r.1, r.2.1, true)
      | (none, bkts2) => onePass bkts2 rest target acc

/-- Total number of metas left in the buckets. -/
def totalSize (bkts : List (Nat × List RecordMeta)) : Nat :=
  (bkts.map (fun b => b.2.length)).sum

/-- A meta occurs in one of the buckets. -/
abbrev memBuckets (m : RecordMeta) (bkts : List (Nat × List RecordMeta)) : Prop :=
  ∃ pair ∈ bkts, m ∈ pair.2

def vecPop_length {l : List α} {x : α × List α} (h : vecPop l = some x) :
    x.2.length + 1 = l.length := by
  induction l generalizing x with
  | nil => simp [vecPop] at h
  | cons a t ih =>
      match t with
      | [] => simp [vecPop] at h; simp [← h]
      | b :: t2 =>
          simp only [vecPop, Option.map_eq_some'] at h
          obtain ⟨y, hy, hx⟩ := h
          have := ih hy
          simp [← hx, ← this]

def popBucket_size_le (bkts : List (Nat × List RecordMeta)) (key : Nat) :
    totalSize (popBucket bkts key).2 ≤ totalSize bkts := by
  induction bkts with
  | nil => simp [popBucket]
  | cons b rest ih =>
      obtain ⟨k, l⟩ := b
      by_cases hk : k = key
      · simp only [popBucket, if_pos hk]
        match hv : vecPop l with
        | none => simp [hv]
        | some ml =>
            have hlen := vecPop_length hv
            simp only [hv, totalSize, List.map_cons, List.sum_cons]
            omega
      · simp only [popBucket, if_neg hk, totalSize, List.map_cons, List.sum_cons]
        have := ih
        simp only [totalSize] at this
        omega

def popBucket_some_size {bkts : List (Nat × List RecordMeta)} {key : Nat}
    {m : RecordMeta} {b2 : List (Nat × List RecordMeta)}
    (h : popBucket bkts key = (some m, b2)) :
    totalSize b2 + 1 = totalSize bkts := by
  induction bkts generalizing b2 with
  | nil => simp [popBucket] at h
  | cons b rest ih =>
      obtain ⟨k, l⟩ := b
      by_cases hk : k = key
      · simp only [popBucket, if_pos hk] at h
        match hv : vecPop l with
        | none => rw [hv] at h; simp at h
        | some ml =>
            rw [hv] at h
            have hlen := vecPop_length hv
            simp only [Prod.mk.injEq, Option.some.injEq] at h
            obtain ⟨_, hb⟩ := h
            subst hb
            simp only [totalSize, List.map_cons, List.sum_cons]
            omega
      · simp only [popBucket, if_neg hk] at h
        simp only [Prod.mk.injEq] at h
        obtain ⟨h1, hb⟩ := h
        subst hb
        have h9 : popBucket rest key = ((popBucket rest key).1, (popBucket rest key).2) := rfl
        rw [h1] at h9
        have := ih h9
        simp only [totalSize, List.map_cons, List.sum_cons] at this ⊢
        omega

def popBucket_none_eq {bkts : List (Nat × List RecordMeta)} {key : Nat}
    {b2 : List (Nat × List RecordMeta)}
    (h : popBucket bkts key = (none, b2)) : b2 = bkts := by
  induction bkts generalizing b2 with
  | nil => simp [popBucket] at h; simp [← h]
  | cons b rest ih =>
      obtain ⟨k, l⟩ := b
      by_cases hk : k = key
      · simp only [popBucket, if_pos hk] at h
        match hv : vecPop l with
        | none =>
            rw [hv] at h
            simp only [Prod.mk.injEq] at h
            rw [← h.2, hk]
        | some ml => rw [hv] at h; simp at h
      · simp only [popBucket, if_neg hk, Prod.mk.injEq] at h
        obtain ⟨h1, hb⟩ := h
        subst hb
        have h9 : popBucket rest key = ((popBucket rest key).1, (popBucket rest key).2) := rfl
        rw [h1] at h9
        rw [ih h9]

def onePass_size_le (bkts : List (Nat × List RecordMeta)) (keys : List Nat)
    (target : Nat) (acc : List Nat) :
    totalSize (onePass bkts keys target acc).1 ≤ totalSize bkts := by
  induction keys generalizing bkts acc with
  | nil => simp [onePass]
  | cons key rest ih =>
      rw [onePass]
      match hp : popBucket bkts key with
      | (some m, bkts2) =>
          have hsize := popBucket_some_size hp
          by_cases hlen : target ≤ (acc ++ [m.id]).length
          · simp only [if_pos hlen]
            omega
          · simp only [if_neg hlen]
            have := ih bkts2 (acc ++ [m.id])
            omega
      | (none, bkts2) =>
          have heq := popBucket_none_eq hp
          subst heq
          exact ih bkts2 acc

def onePass_progressed_size {bkts : List (Nat × List RecordMeta)}
    {keys : List Nat} {target : Nat} {acc : List Nat}
    {b2 : List (Nat × List RecordMeta)} {a2 : List Nat}
    (h : onePass bkts keys target acc = (b2, a2, true)) :
    totalSize b2 < totalSize bkts := by
  induction keys generalizing bkts acc with
  | nil => simp [onePass] at h
  | cons key rest ih =>
      rw [onePass] at h
      match hp : popBucket bkts key with
      | (some m, bkts2) =>
          rw [hp] at h
          dsimp only at h
          have hsize := popBucket_some_size hp
          by_cases hlen : target ≤ (acc ++ [m.id]).length
          · rw [if_pos hlen] at h
            have hb : bkts2 = b2 := by simpa using congrArg Prod.fst h
            rw [← hb]
            omega
          · rw [if_neg hlen] at h
            have hb : (onePass bkts2 rest target (acc ++ [m.id])).1 = b2 := by
              simpa using congrArg Prod.fst h
            have hle := onePass_size_le bkts2 rest target (acc ++ [m.id])
            rw [hb] at hle
            omega
      | (none, bkts2) =>
          rw [hp] at h
          dsimp only at h
          have heq := popBucket_none_eq hp
          subst heq
          exact ih h

/-- The round-robin loop of `distill.rs::diversity_select`: repeat passes
until the target is reached or a full pass yields nothing. -/
def roundRobin (keys : List Nat) (target : Nat)
    (bkts : List (Nat × List RecordMeta)) (acc : List Nat) : List Nat :=
  if target ≤ acc.length then acc
  else
    match h : onePass bkts keys target acc with
    | (b2, a2, true) => roundRobin keys target b2 a2
    | (_, a2, false) => a2
  termination_by totalSize bkts
  decreasing_by
    exact onePass_progressed_size h

/-- `distill.rs::diversity_select`, parametrized by the rng draw stream `g`
(consumed from position `pos`) and the bucket-`HashMap` iteration order `κ`. -/
def diversity_select (g : Nat → Nat) (pos : Nat) (κ : List Nat)
    (metas : List RecordMeta) (target : Nat) : List Nat :=
  let pb := prepBuckets g pos (bucketsFor κ metas)
  let keys := (fyShuffle g pb.2 κ).1
  roundRobin keys target pb.1 []

/-- `distill.rs::apply_strategy`.  A fresh rng is seeded on every call, so
each call consumes the draw stream `g` from position 0; `κsel` supplies the
bucket-key iteration order for the diversity strategy. -/
def apply_strategy (g : Nat → Nat) (κsel : List RecordMeta → List Nat)
    (metas : List RecordMeta) (target : Nat) (config : DistillConfig) :
    List Nat :=
  let sel :=
    if config.strategy = ("importance".toList) then
      ((sortByScoreDesc metas).take target).map (fun m => m.id)
    else if config.strategy = ("random".toList) then
      ((fyShuffle g 0 (metas.map (fun m => m.id))).1).take target
    else diversity_select g 0 (κsel metas) metas target
  sortAsc sel

/-- Category key of a meta: its category, else `"uncategorized"`. -/
def catKey (m : RecordMeta) : Str := m.category.getD ("uncategorized".toList)

/-- Increment the allocation (third component) at list index `i`. -/
def bumpAlloc : List (Str × Nat × Nat) → Nat → List (Str × Nat × Nat)
  | [], _ => []
  | a :: rest, 0 => (a.1, a.2.1, a.2.2 + 1) :: rest
  | a :: rest, i + 1 => a :: bumpAlloc rest i

/-- The `while allocated < target` distribution loop: `n` pending increments
handed out in order, wrapping.  (On an empty allocation list the Rust code
would index out of bounds; that case is unreachable because the balance
branch runs only with a non-empty meta list.) -/
def distributeAlloc : List (Str × Nat × Nat) → Nat → Nat → List (Str × Nat × Nat)
  | allocs, 0, _ => allocs
  | allocs, n + 1, idx => distributeAlloc (bumpAlloc allocs idx) n ((idx + 1) % allocs.length)

/-- `distill.rs::select_records`, parametrized by the iteration order
`catOrder` of the per-category `HashMap` (observed both for the stable
size-descending sort's tie order and for allocation order) and by `κsel` for
the diversity buckets. -/
def select_records (g : Nat → Nat) (κsel : List RecordMeta → List Nat)
    (catOrder : List Str) (metas : List RecordMeta) (config : DistillConfig) :
    List Nat :=
  if metas.length = 0 then []
  else
    let total := metas.length
    let target := computeTarget config total
    if config.preserve_category_balance then
      let byCat := catOrder.map (fun c => (c, metas.filter (fun m => catKey m == c)))
      let allocations := byCat.map
        (fun b => (b.1, b.2.length, natRoundDiv (b.2.length * target) total))
      let allocated := (allocations.map (fun a => a.2.2)).sum
      let sortedAllocs := allocations.insertionSort (fun a b => b.2.1 ≤ a.2.1)
      let finalAllocs := distributeAlloc sortedAllocs (target - allocated) 0
      let selected := (finalAllocs.map (fun a =>
        match byCat.find? (fun b => b.1 == a.1) with
        | some b => apply_strategy g κsel b.2 (min a.2.2 b.2.length) config
        | none => [])).flatten
      (sortAsc selected).take target
    else apply_strategy g κsel metas target config

/-- The meta-collection pass of `distill.rs::preview_distillation`: records
whose index is in the base set, in store order. -/
def collectMetas (parseScore : Str → Option Rat) (hashTok : Str → Nat)
    (fm : FieldMap) (strategy : Str) (records : List Json) (base : List Nat) :
    List RecordMeta :=
  (records.enum.filter (fun p => base.contains p.1)).map
    (fun p => build_record_meta parseScore hashTok p.2 p.1 fm strategy)

/-- `distill.rs::preview_distillation` (completed run): sorted selected ids,
sorted removed ids (`base \ selected`), and the summary. -/
def preview_distillation (g : Nat → Nat) (κsel : List RecordMeta → List Nat)
    (catOrder : List Str) (parseScore : Str → Option Rat) (hashTok : Str → Nat)
    (records : List Json) (baseIds : Option (List Nat)) (config : DistillConfig)
    (fm : FieldMap) : List Nat × List Nat × DistillSummary :=
  let base := baseIds.getD (List.range records.length)
  let metas := collectMetas parseScore hashTok fm config.strategy records base
  let selected := sortAsc (select_records g κsel catOrder metas config)
  let removed := sortAsc (base.filter (fun i => !selected.contains i))
  (selected, removed,
   { total_count := base.length
     selected_count := selected.length
     removed_count := removed.length })

/-- `io.rs::normalize_record`: non-objects are wrapped as
`{"value": <input>}`. -/
def normalize_record (value : Json) : Json :=
  match value with
  | Json.obj _ => value
  | other => Json.obj [(("value".toList), other)]

/-- Byte-lexicographic order on texts (Rust `String` ordering; UTF-8 byte
order coincides with scalar-value order). -/
def strLeB : Str → Str → Bool
  | [], _ => true
  | _ :: _, [] => false
  | a :: as2, b :: bs2 =>
      if a.toNat < b.toNat then true
      else if b.toNat < a.toNat then false
      else strLeB as2 bs2

/-- `HashSet::insert` on the key set (membership-faithful list model). -/
def insertNew (l : List Str) (k : Str) : List Str :=
  if l.contains k then l else l ++ [k]

/-- Accumulator of the `write_record` closure in `io.rs::ingest_dataset`. -/
structure IngestAcc where
  offsets : List Nat := []
  keys : List Str := []
  lines : List Str := []
  offset : Nat := 0
  count : Nat := 0

/-- One `write_record` call: normalize, union keys, serialize, record the
pre-write byte offset, advance by line length plus the newline. -/
def write_record (acc : IngestAcc) (value : Json) : IngestAcc :=
  let record := normalize_record value
  let keys :=
    match record with
    | Json.obj entries => entries.foldl (fun ks kv => insertNew ks kv.1) acc.keys
    | _ => acc.keys
  let line := serializeJson record
  { offsets := acc.offsets ++ [acc.offset]
    keys := keys
    lines := acc.lines ++ [line]
    offset := acc.offset + strBytes line + 1
    count := acc.count + 1 }

/-- The keys of a JSON object (empty for non-objects). -/
def objKeys : Json → List Str
  | Json.obj entries => entries.map Prod.fst
  | _ => []

/-- The store-file line of an input value: the compact serialization of the
normalized record. -/
def recLine (v : Json) : Str := serializeJson (normalize_record v)

/-- The byte offsets of consecutive lines laid out from `base`, each line
followed by one newline byte. -/
def offsetsFrom (base : Nat) : List Str → List Nat
  | [] => []
  | l :: rest => base :: offsetsFrom (base + strBytes l + 1) rest

/-- The store produced by ingestion (the on-disk pieces the claims concern:
offset index, sorted field union, line contents, record count). -/
structure StoreModel where
  offsets : List Nat
  fields : List Str
  lines : List Str
  recordCount : Nat

/-- `io.rs::ingest_dataset` over the stream of decoded input values (the
CSV/JSON decode itself is external library code; every decoded value is fed
to `write_record` in order).  Cancellation and progress are omitted from this
completed-run model. -/
def ingest_dataset (inputs : List Json) : StoreModel :=
  let acc := inputs.foldl write_record {}
  { offsets := acc.offsets
    fields := acc.keys.insertionSort (fun a b => strLeB a b = true)
    lines := acc.lines
    recordCount := acc.count }

/-- The bytes of the store file: each line followed by `'\n'`. -/
def storeFile (lines : List Str) : Str :=
  (lines.map (fun l => l ++ ['\n'])).flatten

/-- Drop exactly `n` bytes (a file seek): `none` when `n` does not land on a
character boundary or runs past the end. -/
def dropBytes : Str → Nat → Option Str
  | s, 0 => some s
  | [], _ + 1 => none
  | c :: rest, n + 1 =>
      if c.utf8Size ≤ n + 1 then dropBytes rest (n + 1 - c.utf8Size) else none

/-- Seek to a byte offset and read one line (up to the next newline). -/
def readLineAt (file : Str) (offset : Nat) : Option Str :=
  (dropBytes file offset).map (fun s => s.takeWhile (fun c => c ≠ '\n'))

/-- Export output: CSV rows, or the text of the JSON-array form. -/
inductive ExportOut where
  | csv (rows : List (List Str)) : ExportOut
  | jsonText (text : Str) : ExportOut

/-- `io.rs::export_dataset` (modeled over the parsed store records; line `i`
of the store file is `serializeJson records[i]`).  The cancellation flag is a
stream of observations, `cancel k` being the flag's value at the `k`-th
polling opportunity: `k = 0` before the start, `k = i + 1` during the writing
of the `i`-th record.  The code polls only `cancel 0`. -/
def export_dataset (records : List Json) (fields : List Str) (ids : List Nat)
    (format : Str) (cancel : Nat → Bool) :
    Except Str (ExportOut × List (Nat × Nat)) :=
  if cancel 0 then Except.error ("Export canceled".toList)
  else if format = ("csv".toList) then
    (ids.enum.foldlM
      (fun (acc : List (List Str) × List (Nat × Nat)) (p : Nat × Nat) =>
        match records.get? p.2 with
        | none => Except.error ("Record id out of range".toList)
        | some record =>
            let row := fields.map (fun f => ((jsonGet record f).map value_to_string).getD [])
            let prog := if p.1 % 1000 = 0 then acc.2 ++ [(p.1, ids.length)] else acc.2
            Except.ok (acc.1 ++ [row], prog))
      (([fields] : List (List Str)), ([] : List (Nat × Nat)))).map
      (fun (acc : List (List Str) × List (Nat × Nat)) => (ExportOut.csv acc.1, acc.2))
  else
    (ids.enum.foldlM
      (fun (acc : Str × List (Nat × Nat)) (p : Nat × Nat) =>
        match records.get? p.2 with
        | none => Except.error ("Record id out of range".toList)
        | some record =>
            let line := serializeJson record ++ ['\n']
            let sep : Str := if 0 < p.1 then [',', '\n'] else []
            let prog := if p.1 % 1000 = 0 then acc.2 ++ [(p.1, ids.length)] else acc.2
            Except.ok (acc.1 ++ sep ++ trimStr line, prog))
      ((['['] : Str), ([] : List (Nat × Nat)))).map
      (fun (acc : Str × List (Nat × Nat)) => (ExportOut.jsonText (acc.1 ++ [']']), acc.2))

/-- `HashSet<usize>::insert` (membership-faithful duplicate-free list). -/
def insertSet (l : List Nat) (k : Nat) : List Nat :=
  if k ∈ l then l else l ++ [k]

/-- `HashSet<usize>::remove`. -/
def eraseSet (l : List Nat) (k : Nat) : List Nat := l.filter (fun x => x ≠ k)

/-- `collect::<HashSet<_>>()`: deduplicate. -/
def dedupSet (l : List Nat) : List Nat := l.foldl insertSet []

/-- `commands/distill.rs::update_manual_selection` on the two id sets
(`HashSet`s; only collect, insert, remove and a final sort are observed, so
duplicate-free lists are an exact model).  A change `(id, include)` inserts
into the corresponding set and removes from the other; outputs are sorted
ascending. -/
def manualStep (sets : List Nat × List Nat) (change : Nat × Bool) :
    List Nat × List Nat :=
  if change.2 then (insertSet sets.1 change.1, eraseSet sets.2 change.1)
  else (eraseSet sets.1 change.1, insertSet sets.2 change.1)

def update_manual_selection (selected removed : List Nat)
    (changes : List (Nat × Bool)) : List Nat × List Nat × DistillSummary :=
  let sets := changes.foldl manualStep (dedupSet selected, dedupSet removed)
  let sv := sortAsc sets.1
  let rv := sortAsc sets.2
  (sv, rv,
   { total_count := sv.length + rv.length
     selected_count := sv.length
     removed_count := rv.length })

/-! Concrete inputs used by counterexamples and witnesses. -/

/-- 479 ASCII bytes followed by a two-byte character: 481 UTF-8 bytes, with
no character boundary at byte 480. -/
def longText : Str := List.replicate 479 'a' ++ ['é']

/-- A field map resolving only the instruction role. -/
def fmInstruction : FieldMap := { instruction := some ("instruction".toList) }

/-- The default field map used in witnesses: instruction and output roles. -/
def fmDefault : FieldMap :=
  { instruction := some ("instruction".toList), output := some ("output".toList) }

/-- A meta with a category, default score and zero signature. -/
def mkCatMeta (i : Nat) (c : Str) : RecordMeta :=
  { id := i, category := some c, score := 0, signature := 0 }

/-- Five metas: two in category a, two in category b, one in category c. -/
def metasBalance : List RecordMeta :=
  [mkCatMeta 0 ("a".toList), mkCatMeta 1 ("a".toList),
   mkCatMeta 2 ("b".toList), mkCatMeta 3 ("b".toList),
   mkCatMeta 4 ("c".toList)]

/-- Balanced importance selection of a single record. -/
def cfgBalanceImportance : DistillConfig :=
  { target_count := some 1, target_percent := none,
    strategy := ("importance".toList), random_seed := none,
    preserve_category_balance := true }

/-- Category iteration order a, b, c. -/
def catOrderABC : List Str := [("a".toList), ("b".toList), ("c".toList)]

/-- Category iteration order b, a, c. -/
def catOrderBAC : List Str := [("b".toList), ("a".toList), ("c".toList)]

/-- A record passing the default filters. -/
def recHello : Json :=
  Json.obj [(("instruction".toList), Json.str ("hi".toList)),
            (("output".toList), Json.str ("yo".toList))]

/-- A record whose instruction is empty (fails the presence predicate). -/
def recEmptyInstruction : Json :=
  Json.obj [(("instruction".toList), Json.str [])]

/-- Two single-field records for export runs. -/
def exportRecords : List Json :=
  [Json.obj [(("a".toList), Json.str ("x".toList))],
   Json.obj [(("a".toList), Json.str ("y".toList))]]

/-- A cancellation stream that becomes set right after the export starts
(false at the pre-start poll, true at every poll during writing). -/
def cancelDuringWriting : Nat → Bool := fun k => decide (1 ≤ k)

/-- A filter config with a non-empty categories list but no category-field
override. -/
def cfgCat : FilterConfig := { categories := [("x".toList)] }

/-- A filter config with fuzzy dedup enabled (exact dedup off). -/
def cfgFuzzy : FilterConfig := { dedupe_exact := false, dedupe_fuzzy := true }

/-- The initial filter state. -/
def emptyFilterState : FilterState := {}

/-!  Claim theorems. -/

/-- C1 (code bug): `truncate_text` takes the byte slice `text[..480]`
directly, so on a preview value whose 480th byte falls inside a multi-byte
character the slice panics instead of producing a boundary-respecting prefix:
on `longText` (481 bytes, no boundary at 480) the truncation — and with it
`build_preview_fields` on a record carrying that value — has no defined
result, refuting "it never fails". -/
theorem C1_truncate_panics_in_preview :
    480 < strBytes longText ∧
    truncate_text longText 480 = none ∧
    build_preview_fields (Json.obj [(("instruction".toList), Json.str longText)])
      fmInstruction = none := by
  refine ⟨by decide, by decide, by decide⟩

/-- C2 (code bug): with category balancing, the per-category allocation order
is the `HashMap` iteration order (ties in bucket size are left in that
order), so the same store, base ids, config (fixed seed) and field map can
select different ids on two runs: under iteration order a,b,c record 0 is
selected, under the equally possible order b,a,c record 2 is — refuting
"identical selected_ids across runs". -/
theorem C2_distill_selection_depends_on_hashmap_order :
    select_records (fun _ => 0) (fun _ => []) catOrderABC metasBalance
      cfgBalanceImportance = [0] ∧
    select_records (fun _ => 0) (fun _ => []) catOrderBAC metasBalance
      cfgBalanceImportance = [2] ∧
    catOrderABC.Perm catOrderBAC := by
  refine ⟨by decide, by decide, by decide⟩

/-- C3 counterexample: an export whose cancellation flag is clear at the
pre-start poll but set at every opportunity during the writing of records
still completes successfully — the flag is never consulted inside the
writing loop, refuting "cancellation is honored … during the record-writing
loop". -/
theorem C3_export_completes_despite_midrun_cancel :
    cancelDuringWriting 1 = true ∧
    (export_dataset exportRecords [("a".toList)] [0, 1] ("json".toList)
      cancelDuringWriting).isOk = true := by
  refine ⟨by decide, by decide⟩

/-- C3 (amended): `export_dataset` honors the cancellation flag only at the
single pre-start check — a set flag there fails the export with the Canceled
error, and the result depends on nothing but that one observation (the flag
is not polled during the writing loop). -/
theorem C3_export_polls_cancel_only_at_start (records : List Json)
    (fields : List Str) (ids : List Nat) (format : Str) (c c2 : Nat → Bool) :
    (c 0 = true →
      export_dataset records fields ids format c =
        Except.error ("Export canceled".toList)) ∧
    (c 0 = c2 0 →
      export_dataset records fields ids format c =
        export_dataset records fields ids format c2) := by
  constructor
  · intro h
    simp [export_dataset, h]
  · intro h
    unfold export_dataset
    rw [h]

theorem C3_export_polls_cancel_only_at_start_witness :
    export_dataset exportRecords [("a".toList)] [0] ("json".toList)
      (fun _ => true) = Except.error ("Export canceled".toList) ∧
    export_dataset exportRecords [("a".toList)] [0] ("json".toList)
      (fun _ => true) =
      export_dataset exportRecords [("a".toList)] [0] ("json".toList)
        (fun k => decide (k = 0)) := by
  have h := C3_export_polls_cancel_only_at_start exportRecords [("a".toList)]
    [0] ("json".toList) (fun _ => true) (fun k => decide (k = 0))
  exact ⟨h.1 rfl, h.2 (by decide)⟩

theorem mem_insertSet {l : List Nat} {k i : Nat} :
    i ∈ insertSet l k ↔ i ∈ l ∨ i = k := by
  unfold insertSet
  by_cases h : k ∈ l
  · simp only [if_pos h]
    constructor
    · exact fun hi => Or.inl hi
    · rintro (hi | rfl) <;> [exact hi; exact h]
  · simp [if_neg h]

theorem mem_eraseSet {l : List Nat} {k i : Nat} :
    i ∈ eraseSet l k ↔ i ∈ l ∧ i ≠ k := by
  simp [eraseSet]

theorem mem_dedupSet {l : List Nat} {i : Nat} : i ∈ dedupSet l ↔ i ∈ l := by
  have general : ∀ (l acc : List Nat), i ∈ l.foldl insertSet acc ↔ i ∈ acc ∨ i ∈ l := by
    intro l
    induction l with
    | nil => simp
    | cons a t ih =>
        intro acc
        rw [List.foldl_cons, ih, mem_insertSet]
        constructor
        · rintro ((h | rfl) | h)
          · exact Or.inl h
          · exact Or.inr (List.mem_cons_self _ _)
          · exact Or.inr (List.mem_cons_of_mem _ h)
        · rintro (h | h)
          · exact Or.inl (Or.inl h)
          · rcases List.mem_cons.mp h with rfl | h
            · exact Or.inl (Or.inr rfl)
            · exact Or.inr h
  rw [dedupSet, general]
  simp

theorem mem_sortAsc {l : List Nat} {i : Nat} : i ∈ sortAsc l ↔ i ∈ l :=
  (List.perm_insertionSort (· ≤ ·) l).mem_iff

theorem sorted_sortAsc (l : List Nat) : List.Sorted (· ≤ ·) (sortAsc l) :=
  List.sorted_insertionSort (· ≤ ·) l

theorem manualFold_disjoint (changes : List (Nat × Bool)) :
    ∀ s r : List Nat, (∀ i, i ∈ s → i ∉ r) →
      ∀ i, i ∈ (changes.foldl manualStep (s, r)).1 →
        i ∉ (changes.foldl manualStep (s, r)).2 := by
  induction changes with
  | nil => intro s r h i; exact h i
  | cons ch rest ih =>
      intro s r h i
      rw [List.foldl_cons]
      by_cases hc : ch.2
      · simp only [manualStep, if_pos hc]
        refine ih _ _ (fun j hj hj2 => ?_) i
        rw [mem_insertSet] at hj
        rw [mem_eraseSet] at hj2
        rcases hj with hj | rfl
        · exact h j hj hj2.1
        · exact hj2.2 rfl
      · simp only [manualStep, if_neg hc]
        refine ih _ _ (fun j hj hj2 => ?_) i
        rw [mem_eraseSet] at hj
        rw [mem_insertSet] at hj2
        rcases hj2 with hj2 | rfl
        · exact h j hj.1 hj2
        · exact hj.2 rfl

theorem manualFold_provenance (changes : List (Nat × Bool)) :
    ∀ s r : List Nat, ∀ i,
      (i ∈ (changes.foldl manualStep (s, r)).1 ∨
       i ∈ (changes.foldl manualStep (s, r)).2) →
      i ∈ s ∨ i ∈ r ∨ i ∈ changes.map Prod.fst := by
  induction changes with
  | nil => intro s r i h; tauto
  | cons ch rest ih =>
      intro s r i
      rw [List.foldl_cons]
      intro h
      by_cases hc : ch.2
      · simp only [manualStep, if_pos hc] at h
        rcases ih _ _ i h with h2 | h2 | h2
        · rw [mem_insertSet] at h2
          rcases h2 with h2 | rfl
          · exact Or.inl h2
          · simp
        · rw [mem_eraseSet] at h2
          exact Or.inr (Or.inl h2.1)
        · simp [h2]
      · simp only [manualStep, if_neg hc] at h
        rcases ih _ _ i h with h2 | h2 | h2
        · rw [mem_eraseSet] at h2
          exact Or.inl h2.1
        · rw [mem_insertSet] at h2
          rcases h2 with h2 | rfl
          · exact Or.inr (Or.inl h2)
          · simp
        · simp [h2]

theorem manualFold_untouched (changes : List (Nat × Bool)) :
    ∀ s r : List Nat, ∀ i, i ∉ changes.map Prod.fst →
      ((i ∈ (changes.foldl manualStep (s, r)).1 ↔ i ∈ s) ∧
       (i ∈ (changes.foldl manualStep (s, r)).2 ↔ i ∈ r)) := by
  induction changes with
  | nil => intro s r i _; exact ⟨Iff.rfl, Iff.rfl⟩
  | cons ch rest ih =>
      intro s r i hi
      have hne : i ≠ ch.1 := by
        intro h; exact hi (by simp [h])
      have hrest : i ∉ rest.map Prod.fst := by
        intro h; exact hi (by simp [h])
      rw [List.foldl_cons]
      by_cases hc : ch.2
      · simp only [manualStep, if_pos hc]
        have := ih (insertSet s ch.1) (eraseSet r ch.1) i hrest
        rw [this.1, this.2, mem_insertSet, mem_eraseSet]
        constructor
        · constructor
          · rintro (h | h) <;> [exact h; exact absurd h hne]
          · exact fun h => Or.inl h
        · constructor
          · exact fun h => h.1
          · exact fun h => ⟨h, hne⟩
      · simp only [manualStep, if_neg hc]
        have := ih (eraseSet s ch.1) (insertSet r ch.1) i hrest
        rw [this.1, this.2, mem_insertSet, mem_eraseSet]
        constructor
        · constructor
          · exact fun h => h.1
          · exact fun h => ⟨h, hne⟩
        · constructor
          · rintro (h | h) <;> [exact h; exact absurd h hne]
          · exact fun h => Or.inl h

/-- C4 counterexample: with preview state selected = [1], removed = [2], the
change list [(5, include)] produces selected = [1, 5] although id 5 was in
neither set — `update_manual_selection` introduces ids that were not part of
the preview's base set, refuting "never introduces an id that was in neither
set". -/
theorem C4_manual_selection_adds_foreign_id :
    update_manual_selection [1] [2] [(5, true)] =
      ([1, 5], [2], { total_count := 3, selected_count := 2, removed_count := 1 }) ∧
    (5 ∉ ([1] : List Nat)) ∧ (5 ∉ ([2] : List Nat)) := by
  refine ⟨by decide, by decide, by decide⟩

/-- C4 (amended): `update_manual_selection` keeps the selected and removed
sets disjoint and emits both sorted ascending; an id not named by any change
stays exactly where it was; every id of the result stems from the previous
sets or from the change list — but a change id that was in neither set is
newly inserted into the corresponding set (include: into selected, exclude:
into removed), so the union can grow beyond the preview's base set. -/
theorem C4_manual_selection_frame (selected removed : List Nat)
    (changes : List (Nat × Bool))
    (hdisj : ∀ i, i ∈ selected → i ∉ removed) :
    List.Sorted (· ≤ ·) (update_manual_selection selected removed changes).1 ∧
    List.Sorted (· ≤ ·) (update_manual_selection selected removed changes).2.1 ∧
    (∀ i, i ∈ (update_manual_selection selected removed changes).1 →
      i ∉ (update_manual_selection selected removed changes).2.1) ∧
    (∀ i, i ∈ (update_manual_selection selected removed changes).1 ∨
          i ∈ (update_manual_selection selected removed changes).2.1 →
      i ∈ selected ∨ i ∈ removed ∨ i ∈ changes.map Prod.fst) ∧
    (∀ i, i ∉ changes.map Prod.fst →
      ((i ∈ (update_manual_selection selected removed changes).1 ↔ i ∈ selected) ∧
       (i ∈ (update_manual_selection selected removed changes).2.1 ↔ i ∈ removed))) := by
  unfold update_manual_selection
  refine ⟨sorted_sortAsc _, sorted_sortAsc _, ?_, ?_, ?_⟩
  · intro i hi
    rw [mem_sortAsc] at hi ⊢
    refine manualFold_disjoint changes _ _ (fun j hj hj2 => ?_) i hi
    rw [mem_dedupSet] at hj hj2
    exact hdisj j hj hj2
  · intro i hi
    rw [mem_sortAsc, mem_sortAsc] at hi
    have := manualFold_provenance changes (dedupSet selected) (dedupSet removed) i hi
    rw [mem_dedupSet, mem_dedupSet] at this
    exact this
  · intro i hi
    have := manualFold_untouched changes (dedupSet selected) (dedupSet removed) i hi
    rw [mem_dedupSet, mem_dedupSet] at this
    rw [mem_sortAsc, mem_sortAsc]
    exact this

theorem C4_manual_selection_frame_witness :
    List.Sorted (· ≤ ·)
      (update_manual_selection [1, 2, 3] [4, 5] [(4, true), (2, false)]).1 ∧
    (7 ∈ (update_manual_selection [1, 2, 3] [4, 5] [(4, true), (2, false)]).1 ↔
      7 ∈ [1, 2, 3]) := by
  have h := C4_manual_selection_frame [1, 2, 3] [4, 5] [(4, true), (2, false)]
    (by intro i hi; fin_cases hi <;> decide)
  exact ⟨h.1, (h.2.2.2.2 7 (by decide)).1⟩

/-- C9: the filter engine is a pure function of the store contents, the
configuration and the field map — its internal `HashSet`/`HashMap` state is
observed only through keyed membership and keyed lookup, never iterated, so
two runs over the same unchanged store with the same config yield identical
filtered ids, summary and progress trace. -/
theorem C9_filter_deterministic (hashTok hashTok2 : Str → Nat)
    (cfg cfg2 : FilterConfig) (fm fm2 : FieldMap)
    (records records2 : List Json)
    (hh : hashTok = hashTok2) (hc : cfg = cfg2) (hf : fm = fm2)
    (hr : records = records2) :
    apply_filters_inner hashTok cfg fm records =
      apply_filters_inner hashTok2 cfg2 fm2 records2 := by
  subst hh
  subst hc
  subst hf
  subst hr
  rfl

theorem C9_filter_deterministic_witness :
    apply_filters_inner (fun _ => 0) {} fmDefault [recHello] =
      apply_filters_inner (fun _ => 0) {} fmDefault [recHello] :=
  C9_filter_deterministic _ _ _ _ _ _ _ _ rfl rfl rfl rfl

/-- C5 counterexample: over a one-record store whose record fails the
presence predicate, the traversed source index 0 is a multiple of 1000 yet
no progress callback fires — the callback is reached only after a record is
kept, refuting "invoked exactly for every source record index that is a
multiple of 1,000 among the records traversed". -/
theorem C5_progress_not_fired_for_dropped_index0 :
    (apply_filters_inner (fun _ => 0) {} fmDefault [recEmptyInstruction]).2 = [] ∧
    (apply_filters_inner (fun _ => 0) {} fmDefault
      [recEmptyInstruction]).1.2.total_count = 1 ∧
    (0 : Nat) % 1000 = 0 := by
  refine ⟨by decide, by decide, by decide⟩

theorem keepRecord_spec (rc : Nat) (st : FilterState) (idx : Nat) :
    (keepRecord rc st idx).1.filtered = st.filtered ++ [idx] ∧
    (keepRecord rc st idx).1.progress =
      st.progress ++ (if idx % 1000 = 0 then [(idx, rc)] else []) ∧
    (keepRecord rc st idx).1.dups = st.dups ∧
    (keepRecord rc st idx).1.exactSeen = st.exactSeen ∧
    (keepRecord rc st idx).2 = Outcome.kept := by
  by_cases h : idx % 1000 = 0 <;> simp [keepRecord, h]

theorem fuzzyPhase_frame (hashTok : Str → Nat) (cfg : FilterConfig) (rc : Nat)
    (st : FilterState) (idx : Nat) (t : Str) :
    ((fuzzyPhase hashTok cfg rc st idx t).1.filtered = st.filtered ∧
     (fuzzyPhase hashTok cfg rc st idx t).1.progress = st.progress ∧
     (fuzzyPhase hashTok cfg rc st idx t).1.dups = st.dups + 1 ∧
     (fuzzyPhase hashTok cfg rc st idx t).2 = Outcome.droppedFuzzy) ∨
    ((fuzzyPhase hashTok cfg rc st idx t).1.filtered = st.filtered ++ [idx] ∧
     (fuzzyPhase hashTok cfg rc st idx t).1.progress =
       st.progress ++ (if idx % 1000 = 0 then [(idx, rc)] else []) ∧
     (fuzzyPhase hashTok cfg rc st idx t).1.dups = st.dups ∧
     (fuzzyPhase hashTok cfg rc st idx t).2 = Outcome.kept) := by
  unfold fuzzyPhase
  split
  · dsimp only
    split
    · left
      exact ⟨rfl, rfl, rfl, rfl⟩
    · right
      by_cases hp : idx % 1000 = 0 <;> simp [keepRecord, hp]
  · right
    by_cases hp : idx % 1000 = 0 <;> simp [keepRecord, hp]

theorem preDedupCheck_cases (cfg : FilterConfig) (fm : FieldMap)
    (record : Json) :
    preDedupCheck cfg fm record = none ∨
    preDedupCheck cfg fm record = some Outcome.droppedRequired ∨
    preDedupCheck cfg fm record = some Outcome.droppedLength ∨
    preDedupCheck cfg fm record = some Outcome.droppedKeyword ∨
    preDedupCheck cfg fm record = some Outcome.droppedCategory := by
  unfold preDedupCheck
  dsimp only
  repeat' split
  all_goals simp

theorem filterStep_frame (hashTok : Str → Nat) (cfg : FilterConfig)
    (fm : FieldMap) (rc : Nat) (st : FilterState) (idx : Nat) (record : Json) :
    ((filterStep hashTok cfg fm rc st idx record).1.filtered = st.filtered ∧
     (filterStep hashTok cfg fm rc st idx record).1.progress = st.progress ∧
     (filterStep hashTok cfg fm rc st idx record).1.dups = st.dups ∧
     (filterStep hashTok cfg fm rc st idx record).2 ≠ Outcome.kept ∧
     (filterStep hashTok cfg fm rc st idx record).2 ≠ Outcome.droppedExact ∧
     (filterStep hashTok cfg fm rc st idx record).2 ≠ Outcome.droppedFuzzy) ∨
    ((filterStep hashTok cfg fm rc st idx record).1.filtered = st.filtered ∧
     (filterStep hashTok cfg fm rc st idx record).1.progress = st.progress ∧
     (filterStep hashTok cfg fm rc st idx record).1.dups = st.dups + 1 ∧
     ((filterStep hashTok cfg fm rc st idx record).2 = Outcome.droppedExact ∨
      (filterStep hashTok cfg fm rc st idx record).2 = Outcome.droppedFuzzy)) ∨
    ((filterStep hashTok cfg fm rc st idx record).1.filtered = st.filtered ++ [idx] ∧
     (filterStep hashTok cfg fm rc st idx record).1.progress =
       st.progress ++ (if idx % 1000 = 0 then [(idx, rc)] else []) ∧
     (filterStep hashTok cfg fm rc st idx record).1.dups = st.dups ∧
     (filterStep hashTok cfg fm rc st idx record).2 = Outcome.kept) := by
  unfold filterStep
  match hpre : preDedupCheck cfg fm record with
  | some o =>
      rcases preDedupCheck_cases cfg fm record with hc | hc | hc | hc | hc <;>
        rw [hpre] at hc
      · exact absurd hc (by simp)
      all_goals
        injection hc with hc2
        subst hc2
        left
        exact ⟨rfl, rfl, rfl, nofun, nofun, nofun⟩
  | none =>
      dsimp only
      by_cases hd : (cfg.dedupe_exact &&
          !((extract_text_value record fm.instruction).getD [] == [])) = true
      · rw [if_pos hd]
        by_cases hm : exactNormalize ((extract_text_value record fm.instruction).getD []) ∈
            st.exactSeen
        · rw [if_pos hm]
          right; left
          exact ⟨rfl, rfl, rfl, Or.inl rfl⟩
        · rw [if_neg hm]
          have h := fuzzyPhase_frame hashTok cfg rc
            { st with exactSeen :=
                exactNormalize ((extract_text_value record fm.instruction).getD []) ::
                  st.exactSeen }
            idx ((extract_text_value record fm.instruction).getD [])
          dsimp only at h
          rcases h with h | h
          · right; left
            exact ⟨h.1, h.2.1, h.2.2.1, Or.inr h.2.2.2⟩
          · right; right
            exact h
      · rw [if_neg hd]
        have h := fuzzyPhase_frame hashTok cfg rc st idx
          ((extract_text_value record fm.instruction).getD [])
        rcases h with h | h
        · right; left
          exact ⟨h.1, h.2.1, h.2.2.1, Or.inr h.2.2.2⟩
        · right; right
          exact h

theorem runFilter_spec (hashTok : Str → Nat) (cfg : FilterConfig)
    (fm : FieldMap) (rc : Nat) :
    ∀ (records : List Json) (st : FilterState) (idx : Nat),
      (runFilter hashTok cfg fm rc st idx records).1.filtered =
        st.filtered ++
          (((runFilter hashTok cfg fm rc st idx records).2.filter
            (fun p => p.2 == Outcome.kept)).map Prod.fst) ∧
      (runFilter hashTok cfg fm rc st idx records).1.progress =
        st.progress ++
          ((((runFilter hashTok cfg fm rc st idx records).2.filter
            (fun p => p.2 == Outcome.kept)).map Prod.fst).filter
              (fun i => i % 1000 = 0)).map (fun i => (i, rc)) ∧
      (runFilter hashTok cfg fm rc st idx records).1.dups =
        st.dups +
          ((runFilter hashTok cfg fm rc st idx records).2.filter
            (fun p => p.2 == Outcome.droppedExact ||
                      p.2 == Outcome.droppedFuzzy)).length := by
  intro records
  induction records with
  | nil => intro st idx; simp [runFilter]
  | cons r rest ih =>
      intro st idx
      rw [runFilter]
      rcases filterStep_frame hashTok cfg fm rc st idx r with h | h | h
      · obtain ⟨h1, h2, h3, hk, he, hf⟩ := h
        have hek : ((idx, (filterStep hashTok cfg fm rc st idx r).2).2 ==
            Outcome.kept) = false := by
          simp [hk]
        have hed : ((idx, (filterStep hashTok cfg fm rc st idx r).2).2 ==
            Outcome.droppedExact ||
            (idx, (filterStep hashTok cfg fm rc st idx r).2).2 ==
            Outcome.droppedFuzzy) = false := by
          simp [he, hf]
        obtain ⟨ih1, ih2, ih3⟩ := ih (filterStep hashTok cfg fm rc st idx r).1 (idx + 1)
        refine ⟨?_, ?_, ?_⟩
        · simp only [List.filter_cons, hek, Bool.false_eq_true, if_false]
          rw [ih1, h1]
        · simp only [List.filter_cons, hek, Bool.false_eq_true, if_false]
          rw [ih2, h2]
        · simp only [List.filter_cons, hed, Bool.false_eq_true, if_false]
          rw [ih3, h3]
      · obtain ⟨h1, h2, h3, hor⟩ := h
        have hek : ((idx, (filterStep hashTok cfg fm rc st idx r).2).2 ==
            Outcome.kept) = false := by
          rcases hor with h4 | h4 <;> simp [h4]
        have hed : ((idx, (filterStep hashTok cfg fm rc st idx r).2).2 ==
            Outcome.droppedExact ||
            (idx, (filterStep hashTok cfg fm rc st idx r).2).2 ==
            Outcome.droppedFuzzy) = true := by
          rcases hor with h4 | h4 <;> simp [h4]
        obtain ⟨ih1, ih2, ih3⟩ := ih (filterStep hashTok cfg fm rc st idx r).1 (idx + 1)
        refine ⟨?_, ?_, ?_⟩
        · simp only [List.filter_cons, hek, Bool.false_eq_true, if_false]
          rw [ih1, h1]
        · simp only [List.filter_cons, hek, Bool.false_eq_true, if_false]
          rw [ih2, h2]
        · simp only [List.filter_cons, hed, if_true]
          rw [List.length_cons, ih3, h3]
          omega
      · obtain ⟨h1, h2, h3, hk⟩ := h
        have hek : ((idx, (filterStep hashTok cfg fm rc st idx r).2).2 ==
            Outcome.kept) = true := by
          simp [hk]
        have hed : ((idx, (filterStep hashTok cfg fm rc st idx r).2).2 ==
            Outcome.droppedExact ||
            (idx, (filterStep hashTok cfg fm rc st idx r).2).2 ==
            Outcome.droppedFuzzy) = false := by
          simp [hk]
        obtain ⟨ih1, ih2, ih3⟩ := ih (filterStep hashTok cfg fm rc st idx r).1 (idx + 1)
        refine ⟨?_, ?_, ?_⟩
        · simp only [List.filter_cons, hek, if_true]
          rw [List.map_cons, ih1, h1]
          simp
        · simp only [List.filter_cons, hek, if_true]
          rw [List.map_cons, List.filter_cons, ih2, h2]
          by_cases hp : idx % 1000 = 0 <;> simp [hp]
        · simp only [List.filter_cons, hed, Bool.false_eq_true, if_false]
          rw [ih3, h3]

/-- C5 (amended): the progress callback fires exactly for the kept records
whose source index is a multiple of 1,000 — the cadence is indeed computed
from the source index (`idx % 1000`), but the call sits after the predicate
chain, so traversed-and-dropped records at such indices fire nothing. -/
theorem C5_progress_fires_on_kept_multiples (hashTok : Str → Nat)
    (cfg : FilterConfig) (fm : FieldMap) (records : List Json) :
    (apply_filters_inner hashTok cfg fm records).2 =
      (((apply_filters_inner hashTok cfg fm records).1.1).filter
        (fun i => i % 1000 = 0)).map (fun i => (i, records.length)) := by
  unfold apply_filters_inner
  obtain ⟨h1, h2, _⟩ := runFilter_spec hashTok cfg fm records.length records {} 0
  dsimp only
  rw [h2, h1]
  simp

theorem preDedupCheck_no_category_drop (cfg : FilterConfig) (fm : FieldMap)
    (record : Json) (hnone : categoryFieldOf cfg fm = none) :
    preDedupCheck cfg fm record ≠ some Outcome.droppedCategory := by
  unfold preDedupCheck
  dsimp only
  rw [hnone]
  repeat' split
  all_goals simp_all

theorem preDedupCheck_categories_irrelevant (cfg : FilterConfig)
    (fm : FieldMap) (record : Json)
    (hnone : categoryFieldOf cfg fm = none) :
    preDedupCheck cfg fm record =
      preDedupCheck { cfg with categories := [] } fm record := by
  have hnone2 : categoryFieldOf { cfg with categories := [] } fm = none := hnone
  unfold preDedupCheck
  dsimp only
  rw [hnone, hnone2]
  rfl

theorem filterStep_categories_irrelevant (hashTok : Str → Nat)
    (cfg : FilterConfig) (fm : FieldMap) (rc : Nat) (st : FilterState)
    (idx : Nat) (record : Json)
    (hnone : categoryFieldOf cfg fm = none) :
    filterStep hashTok cfg fm rc st idx record =
      filterStep hashTok { cfg with categories := [] } fm rc st idx record := by
  unfold filterStep
  rw [← preDedupCheck_categories_irrelevant cfg fm record hnone]
  cases hpre : preDedupCheck cfg fm record <;> rfl

theorem runFilter_categories_irrelevant (hashTok : Str → Nat)
    (cfg : FilterConfig) (fm : FieldMap) (rc : Nat)
    (hnone : categoryFieldOf cfg fm = none) :
    ∀ (records : List Json) (st : FilterState) (idx : Nat),
      runFilter hashTok cfg fm rc st idx records =
        runFilter hashTok { cfg with categories := [] } fm rc st idx records := by
  intro records
  induction records with
  | nil => intro st idx; rfl
  | cons r rest ih =>
      intro st idx
      rw [runFilter, runFilter,
        ← filterStep_categories_irrelevant hashTok cfg fm rc st idx r hnone, ih]

/-- C10: when the configured categories list is non-empty but neither the
config's category_field override nor the field map's category role is set,
the category-membership step rejects no record — the comparison against the
categories set runs only under a resolved category field name, so the
outcome `droppedCategory` is unreachable and the whole filter run is
identical to one with an empty categories list. -/
theorem C10_unset_category_field_rejects_nothing (hashTok : Str → Nat)
    (cfg : FilterConfig) (fm : FieldMap)
    (hover : cfg.category_field = none) (hmap : fm.category = none)
    (hne : cfg.categories ≠ []) :
    (∀ rc st idx record,
      (filterStep hashTok cfg fm rc st idx record).2 ≠ Outcome.droppedCategory) ∧
    (∀ records, apply_filters_inner hashTok cfg fm records =
      apply_filters_inner hashTok { cfg with categories := [] } fm records) := by
  have hnone : categoryFieldOf cfg fm = none := by
    simp [categoryFieldOf, hover, hmap, Option.orElse]
  constructor
  · intro rc st idx record
    unfold filterStep
    cases hpre : preDedupCheck cfg fm record with
    | some o =>
        have := preDedupCheck_no_category_drop cfg fm record hnone
        rw [hpre] at this
        intro hcon
        exact this (by rw [show o = Outcome.droppedCategory from hcon])
    | none =>
        dsimp only
        by_cases hd : (cfg.dedupe_exact &&
            !((extract_text_value record fm.instruction).getD [] == [])) = true
        · rw [if_pos hd]
          by_cases hm : exactNormalize
              ((extract_text_value record fm.instruction).getD []) ∈ st.exactSeen
          · rw [if_pos hm]
            exact nofun
          · rw [if_neg hm]
            rcases fuzzyPhase_frame hashTok cfg rc
              { st with exactSeen :=
                  exactNormalize ((extract_text_value record fm.instruction).getD []) ::
                    st.exactSeen }
              idx ((extract_text_value record fm.instruction).getD []) with h | h
            · rw [h.2.2.2]
              exact nofun
            · rw [h.2.2.2]
              exact nofun
        · rw [if_neg hd]
          rcases fuzzyPhase_frame hashTok cfg rc st idx
            ((extract_text_value record fm.instruction).getD []) with h | h
          · rw [h.2.2.2]
            exact nofun
          · rw [h.2.2.2]
            exact nofun
  · intro records
    unfold apply_filters_inner
    rw [runFilter_categories_irrelevant hashTok cfg fm records.length hnone records {} 0]

theorem C10_unset_category_field_rejects_nothing_witness :
    (filterStep (fun _ => 0) cfgCat fmDefault 1 {} 0 recHello).2 ≠
      Outcome.droppedCategory ∧
    apply_filters_inner (fun _ => 0) cfgCat fmDefault [recHello] =
      apply_filters_inner (fun _ => 0) { cfgCat with categories := [] }
        fmDefault [recHello] := by
  have h := C10_unset_category_field_rejects_nothing (fun _ => 0) cfgCat
    fmDefault rfl rfl (by decide)
  exact ⟨h.1 1 {} 0 recHello, h.2 [recHello]⟩

theorem keepRecord_fuzzyBuckets (rc : Nat) (st : FilterState) (idx : Nat) :
    (keepRecord rc st idx).1.fuzzyBuckets = st.fuzzyBuckets := by
  unfold keepRecord
  by_cases hp : idx % 1000 = 0 <;> simp [hp]

theorem foldPushBuckets (segs : List Nat) (bk : Nat → List Nat) (hsh : Nat)
    (s2 : Nat) :
    (segs.foldl (fun bk s => fun t => if t = s then bk t ++ [hsh] else bk t) bk) s2 =
      bk s2 ++ List.replicate (segs.count s2) hsh := by
  induction segs generalizing bk with
  | nil => simp
  | cons a t ih =>
      rw [List.foldl_cons, ih]
      by_cases h : s2 = a
      · subst h
        rw [List.count_cons_self, if_pos rfl, List.append_assoc,
          List.replicate_succ]
        simp
      · rw [if_neg h, List.count_cons_of_ne h]

/-- C6: with fuzzy dedup enabled, a record with non-empty instruction text
that reaches the fuzzy phase is dropped as a fuzzy duplicate iff, splitting
its 64-bit SimHash into four 16-bit segments, some previously inserted hash
stored under one of those segment keys has Hamming distance at most 3; a
kept record has its hash pushed under all four segment keys (once per
occurrence of the key); and over a whole run `duplicates_removed` counts
exactly the records dropped at the exact or fuzzy dedup stages. -/
theorem C6_fuzzy_dedup_mechanics (hashTok : Str → Nat) (cfg : FilterConfig)
    (fm : FieldMap) :
    (∀ rc st idx t, cfg.dedupe_fuzzy = true → t ≠ [] →
      ((fuzzyPhase hashTok cfg rc st idx t).2 = Outcome.droppedFuzzy ↔
        ∃ s2 ∈ fuzzySegments (simhash hashTok t), ∃ c ∈ st.fuzzyBuckets s2,
          hamming_distance c (simhash hashTok t) ≤ 3)) ∧
    (∀ rc st idx t, cfg.dedupe_fuzzy = true → t ≠ [] →
      (fuzzyPhase hashTok cfg rc st idx t).2 = Outcome.kept →
      ∀ s2, (fuzzyPhase hashTok cfg rc st idx t).1.fuzzyBuckets s2 =
        st.fuzzyBuckets s2 ++
          List.replicate ((fuzzySegments (simhash hashTok t)).count s2)
            (simhash hashTok t)) ∧
    (∀ records, (apply_filters_inner hashTok cfg fm records).1.2.duplicates_removed =
      ((runFilter hashTok cfg fm records.length {} 0 records).2.filter
        (fun p => p.2 == Outcome.droppedExact ||
                  p.2 == Outcome.droppedFuzzy)).length) := by
  refine ⟨?_, ?_, ?_⟩
  · intro rc st idx t hf ht
    unfold fuzzyPhase
    rw [if_pos (by simp [hf, ht])]
    dsimp only
    by_cases hdup : ((fuzzySegments (simhash hashTok t)).any
        (fun s => (st.fuzzyBuckets s).any
          (fun c => hamming_distance c (simhash hashTok t) ≤ 3))) = true
    · rw [if_pos hdup]
      simp only [List.any_eq_true, decide_eq_true_eq] at hdup
      exact ⟨fun _ => hdup, fun _ => rfl⟩
    · rw [if_neg hdup]
      simp only [List.any_eq_true, decide_eq_true_eq] at hdup
      constructor
      · intro hcon
        have hk := (keepRecord_spec rc { st with fuzzyBuckets := List.foldl (fun bk s => fun t2 => if t2 = s then bk t2 ++ [simhash hashTok t] else bk t2) st.fuzzyBuckets (fuzzySegments (simhash hashTok t)) } idx).2.2.2.2
        rw [hcon] at hk
        exact Outcome.noConfusion hk
      · intro hcon
        exact absurd hcon hdup
  · intro rc st idx t hf ht hkept
    unfold fuzzyPhase
    rw [if_pos (by simp [hf, ht])]
    unfold fuzzyPhase at hkept
    rw [if_pos (by simp [hf, ht])] at hkept
    dsimp only at hkept ⊢
    by_cases hdup : ((fuzzySegments (simhash hashTok t)).any
        (fun s => (st.fuzzyBuckets s).any
          (fun c => hamming_distance c (simhash hashTok t) ≤ 3))) = true
    · rw [if_pos hdup] at hkept
      exact absurd hkept (by exact nofun)
    · rw [if_neg hdup]
      intro s2
      rw [keepRecord_fuzzyBuckets]
      exact foldPushBuckets _ st.fuzzyBuckets (simhash hashTok t) s2
  · intro records
    unfold apply_filters_inner
    obtain ⟨_, _, h3⟩ := runFilter_spec hashTok cfg fm records.length records {} 0
    dsimp only
    rw [h3]
    simp

theorem C6_fuzzy_dedup_mechanics_witness :
    ((fuzzyPhase (fun _ => 0) cfgFuzzy 1 emptyFilterState 0
        ("hello world".toList)).2 = Outcome.droppedFuzzy ↔
      ∃ s2 ∈ fuzzySegments (simhash (fun _ => 0) ("hello world".toList)),
        ∃ c ∈ emptyFilterState.fuzzyBuckets s2,
          hamming_distance c (simhash (fun _ => 0) ("hello world".toList)) ≤ 3) ∧
    (apply_filters_inner (fun _ => 0) cfgFuzzy fmDefault
        [recHello]).1.2.duplicates_removed =
      ((runFilter (fun _ => 0) cfgFuzzy fmDefault 1 {} 0 [recHello]).2.filter
        (fun p => p.2 == Outcome.droppedExact ||
                  p.2 == Outcome.droppedFuzzy)).length := by
  have h := C6_fuzzy_dedup_mechanics (fun _ => 0) cfgFuzzy fmDefault
  exact ⟨h.1 1 emptyFilterState 0 ("hello world".toList) rfl (by decide),
    h.2.2 [recHello]⟩

theorem cons_eraseIdx_perm (l : List α) (j : Nat) (h : j < l.length) :
    (l.get ⟨j, h⟩ :: l.eraseIdx j).Perm l := by
  induction l generalizing j with
  | nil => simp at h
  | cons a t ih =>
      cases j with
      | zero => simp [List.eraseIdx]
      | succ j2 =>
          have hj2 : j2 < t.length := by simpa using h
          simp only [List.get_cons_succ, List.eraseIdx_cons_succ]
          exact (List.Perm.swap a (t.get ⟨j2, hj2⟩) (t.eraseIdx j2)).trans
            ((ih j2 hj2).cons a)

theorem fyShuffle_perm (g : Nat → Nat) :
    ∀ (n : Nat) (l : List α), l.length ≤ n → ∀ pos,
      ((fyShuffle g pos l).1).Perm l := by
  intro n
  induction n with
  | zero =>
      intro l hl pos
      rw [List.length_eq_zero.mp (Nat.le_zero.mp hl)]
      rw [fyShuffle]
  | succ n ih =>
      intro l hl pos
      match l with
      | [] =>
          rw [fyShuffle]
      | a :: t =>
          rw [fyShuffle]
          dsimp only
          have hj : g pos % (a :: t).length < (a :: t).length :=
            Nat.mod_lt _ (Nat.succ_pos _)
          have hlen : ((a :: t).eraseIdx (g pos % (a :: t).length)).length ≤ n := by
            rw [List.length_eraseIdx, if_pos hj]
            simpa using Nat.le_of_succ_le_succ hl
          exact ((ih _ hlen (pos + 1)).cons _).trans (cons_eraseIdx_perm _ _ hj)

theorem vecPop_mem {l : List α} {x : α} {l2 : List α}
    (h : vecPop l = some (x, l2)) : x ∈ l ∧ ∀ y ∈ l2, y ∈ l := by
  induction l generalizing x l2 with
  | nil => simp [vecPop] at h
  | cons a t ih =>
      match t with
      | [] =>
          simp only [vecPop, Option.some.injEq, Prod.mk.injEq] at h
          obtain ⟨rfl, rfl⟩ := h
          exact ⟨List.mem_cons_self _ _, by simp⟩
      | b :: t2 =>
          simp only [vecPop, Option.map_eq_some'] at h
          obtain ⟨⟨y, l3⟩, hy, hx⟩ := h
          obtain ⟨rfl, rfl⟩ : y = x ∧ a :: l3 = l2 := by
            constructor <;> [exact congrArg Prod.fst hx; exact congrArg Prod.snd hx]
          obtain ⟨hy1, hy2⟩ := ih hy
          refine ⟨List.mem_cons_of_mem _ hy1, ?_⟩
          intro z hz
          rcases List.mem_cons.mp hz with rfl | hz
          · exact List.mem_cons_self _ _
          · exact List.mem_cons_of_mem _ (hy2 z hz)

theorem popBucket_mem {bkts : List (Nat × List RecordMeta)} {key : Nat}
    {m : RecordMeta} {b2 : List (Nat × List RecordMeta)}
    (h : popBucket bkts key = (some m, b2)) :
    memBuckets m bkts ∧ ∀ x, memBuckets x b2 → memBuckets x bkts := by
  induction bkts generalizing b2 with
  | nil => simp [popBucket] at h
  | cons b rest ih =>
      obtain ⟨k, l⟩ := b
      by_cases hk : k = key
      · simp only [popBucket, if_pos hk] at h
        match hv : vecPop l with
        | none => rw [hv] at h; simp at h
        | some ml =>
            rw [hv] at h
            simp only [Prod.mk.injEq, Option.some.injEq] at h
            obtain ⟨rfl, hb⟩ := h
            subst hb
            obtain ⟨hm, hsub⟩ := vecPop_mem hv
            constructor
            · exact ⟨(k, l), List.mem_cons_self _ _, hm⟩
            · rintro x ⟨pair, hpair, hx⟩
              rcases List.mem_cons.mp hpair with rfl | hpair
              · exact ⟨(k, l), List.mem_cons_self _ _, hsub _ hx⟩
              · exact ⟨pair, List.mem_cons_of_mem _ hpair, hx⟩
      · simp only [popBucket, if_neg hk, Prod.mk.injEq] at h
        obtain ⟨h1, hb⟩ := h
        subst hb
        have h9 : popBucket rest key = ((popBucket rest key).1, (popBucket rest key).2) := rfl
        rw [h1] at h9
        obtain ⟨hm, hsub⟩ := ih h9
        constructor
        · obtain ⟨pair, hpair, hx⟩ := hm
          exact ⟨pair, List.mem_cons_of_mem _ hpair, hx⟩
        · rintro x ⟨pair, hpair, hx⟩
          rcases List.mem_cons.mp hpair with rfl | hpair
          · exact ⟨(k, l), List.mem_cons_self _ _, hx⟩
          · obtain ⟨pair2, hp2, hx2⟩ := hsub x ⟨pair, hpair, hx⟩
            exact ⟨pair2, List.mem_cons_of_mem _ hp2, hx2⟩

theorem onePass_mem {keys : List Nat} {target : Nat} :
    ∀ {bkts : List (Nat × List RecordMeta)} {acc : List Nat}
      {b2 : List (Nat × List RecordMeta)} {a2 : List Nat} {f : Bool},
      onePass bkts keys target acc = (b2, a2, f) →
      (∀ x ∈ a2, x ∈ acc ∨ ∃ m, memBuckets m bkts ∧ m.id = x) ∧
      (∀ m, memBuckets m b2 → memBuckets m bkts) := by
  induction keys with
  | nil =>
      intro bkts acc b2 a2 f h
      simp only [onePass, Prod.mk.injEq] at h
      obtain ⟨rfl, rfl, _⟩ := h
      exact ⟨fun x hx => Or.inl hx, fun m hm => hm⟩
  | cons key rest ih =>
      intro bkts acc b2 a2 f h
      rw [onePass] at h
      match hp : popBucket bkts key with
      | (some m, bkts2) =>
          rw [hp] at h
          dsimp only at h
          obtain ⟨hmem, hsub⟩ := popBucket_mem hp
          by_cases hlen : target ≤ (acc ++ [m.id]).length
          · rw [if_pos hlen] at h
            simp only [Prod.mk.injEq] at h
            obtain ⟨rfl, rfl, _⟩ := h
            constructor
            · intro x hx
              rcases List.mem_append.mp hx with hx | hx
              · exact Or.inl hx
              · right
                exact ⟨m, hmem, (List.mem_singleton.mp hx).symm⟩
            · exact hsub
          · rw [if_neg hlen] at h
            simp only [Prod.mk.injEq] at h
            obtain ⟨h1, h2, _⟩ := h
            have hrec : onePass bkts2 rest target (acc ++ [m.id]) =
                ((onePass bkts2 rest target (acc ++ [m.id])).1,
                 (onePass bkts2 rest target (acc ++ [m.id])).2.1,
                 (onePass bkts2 rest target (acc ++ [m.id])).2.2) := rfl
            obtain ⟨ih1, ih2⟩ := ih hrec
            constructor
            · intro x hx
              rw [← h2] at hx
              rcases ih1 x hx with hx2 | ⟨m2, hm2, hid⟩
              · rcases List.mem_append.mp hx2 with hx3 | hx3
                · exact Or.inl hx3
                · right
                  exact ⟨m, hmem, (List.mem_singleton.mp hx3).symm⟩
              · exact Or.inr ⟨m2, hsub m2 hm2, hid⟩
            · intro x hx
              rw [← h1] at hx
              exact hsub x (ih2 x hx)
      | (none, bkts2) =>
          rw [hp] at h
          dsimp only at h
          have heq := popBucket_none_eq hp
          subst heq
          exact ih h

theorem onePass_len {keys : List Nat} {target : Nat} :
    ∀ {bkts : List (Nat × List RecordMeta)} {acc : List Nat}
      {b2 : List (Nat × List RecordMeta)} {a2 : List Nat} {f : Bool},
      acc.length < target →
      onePass bkts keys target acc = (b2, a2, f) →
      a2.length ≤ target := by
  induction keys with
  | nil =>
      intro bkts acc b2 a2 f hlt h
      simp only [onePass, Prod.mk.injEq] at h
      obtain ⟨_, rfl, _⟩ := h
      exact Nat.le_of_lt hlt
  | cons key rest ih =>
      intro bkts acc b2 a2 f hlt h
      rw [onePass] at h
      match hp : popBucket bkts key with
      | (some m, bkts2) =>
          rw [hp] at h
          dsimp only at h
          by_cases hlen : target ≤ (acc ++ [m.id]).length
          · rw [if_pos hlen] at h
            simp only [Prod.mk.injEq] at h
            obtain ⟨_, rfl, _⟩ := h
            simp only [List.length_append, List.length_cons, List.length_nil]
            omega
          · rw [if_neg hlen] at h
            simp only [Prod.mk.injEq] at h
            obtain ⟨_, h2, _⟩ := h
            have hrec : onePass bkts2 rest target (acc ++ [m.id]) =
                ((onePass bkts2 rest target (acc ++ [m.id])).1,
                 (onePass bkts2 rest target (acc ++ [m.id])).2.1,
                 (onePass bkts2 rest target (acc ++ [m.id])).2.2) := rfl
            have := ih (by omega) hrec
            rw [← h2]
            exact this
      | (none, bkts2) =>
          rw [hp] at h
          dsimp only at h
          have heq := popBucket_none_eq hp
          subst heq
          exact ih hlt h

theorem roundRobin_len (keys : List Nat) (target : Nat) :
    ∀ (n : Nat) (bkts : List (Nat × List RecordMeta)), totalSize bkts ≤ n →
      ∀ (acc : List Nat), acc.length ≤ target →
        (roundRobin keys target bkts acc).length ≤ target := by
  intro n
  induction n with
  | zero =>
      intro bkts hn acc hacc
      rw [roundRobin]
      by_cases hg : target ≤ acc.length
      · rw [if_pos hg]
        exact hacc
      · rw [if_neg hg]
        match hp : onePass bkts keys target acc with
        | (b2, a2, true) =>
            exact absurd (onePass_progressed_size hp) (by omega)
        | (b2, a2, false) =>
            exact onePass_len (by omega) hp
  | succ n ih =>
      intro bkts hn acc hacc
      rw [roundRobin]
      by_cases hg : target ≤ acc.length
      · rw [if_pos hg]
        exact hacc
      · rw [if_neg hg]
        match hp : onePass bkts keys target acc with
        | (b2, a2, true) =>
            have hs := onePass_progressed_size hp
            exact ih b2 (by omega) a2 (onePass_len (by omega) hp)
        | (b2, a2, false) =>
            exact onePass_len (by omega) hp

theorem roundRobin_mem (keys : List Nat) (target : Nat) :
    ∀ (n : Nat) (bkts : List (Nat × List RecordMeta)), totalSize bkts ≤ n →
      ∀ (acc : List Nat) (x : Nat), x ∈ roundRobin keys target bkts acc →
        x ∈ acc ∨ ∃ m, memBuckets m bkts ∧ m.id = x := by
  intro n
  induction n with
  | zero =>
      intro bkts hn acc x hx
      rw [roundRobin] at hx
      by_cases hg : target ≤ acc.length
      · rw [if_pos hg] at hx
        exact Or.inl hx
      · rw [if_neg hg] at hx
        match hp : onePass bkts keys target acc with
        | (b2, a2, true) =>
            exact absurd (onePass_progressed_size hp) (by omega)
        | (b2, a2, false) =>
            rw [hp] at hx
            exact (onePass_mem hp).1 x hx
  | succ n ih =>
      intro bkts hn acc x hx
      rw [roundRobin] at hx
      by_cases hg : target ≤ acc.length
      · rw [if_pos hg] at hx
        exact Or.inl hx
      · rw [if_neg hg] at hx
        match hp : onePass bkts keys target acc with
        | (b2, a2, true) =>
            rw [hp] at hx
            have hs := onePass_progressed_size hp
            obtain ⟨hm1, hm2⟩ := onePass_mem hp
            rcases ih b2 (by omega) a2 x hx with hx2 | ⟨m, hm, hid⟩
            · rcases hm1 x hx2 with hx3 | hx3
              · exact Or.inl hx3
              · exact Or.inr hx3
            · exact Or.inr ⟨m, hm2 m hm, hid⟩
        | (b2, a2, false) =>
            rw [hp] at hx
            exact (onePass_mem hp).1 x hx

theorem fyShuffle_perm2 (g : Nat → Nat) (pos : Nat) (l : List α) :
    ((fyShuffle g pos l).1).Perm l :=
  fyShuffle_perm g l.length l (Nat.le_refl _) pos

theorem sortByScoreDesc_perm (l : List RecordMeta) :
    (sortByScoreDesc l).Perm l :=
  List.perm_insertionSort _ l

theorem sortAsc_perm (l : List Nat) : (sortAsc l).Perm l :=
  List.perm_insertionSort _ l

theorem prepBuckets_mem (g : Nat → Nat) :
    ∀ (bkts : List (Nat × List RecordMeta)) (pos : Nat) (m : RecordMeta),
      memBuckets m (prepBuckets g pos bkts).1 → memBuckets m bkts := by
  intro bkts
  induction bkts with
  | nil =>
      intro pos m hm
      simpa [prepBuckets] using hm
  | cons b rest ih =>
      intro pos m hm
      obtain ⟨k, l⟩ := b
      rw [prepBuckets] at hm
      dsimp only at hm
      obtain ⟨pair, hpair, hx⟩ := hm
      rcases List.mem_cons.mp hpair with rfl | hpair
      · refine ⟨(k, l), List.mem_cons_self _ _, ?_⟩
        have h1 := (fyShuffle_perm2 g pos (sortByScoreDesc l)).mem_iff.mp hx
        exact (sortByScoreDesc_perm l).mem_iff.mp h1
      · obtain ⟨pair2, hp2, hx2⟩ := ih _ m ⟨pair, hpair, hx⟩
        exact ⟨pair2, List.mem_cons_of_mem _ hp2, hx2⟩

theorem bucketsFor_mem {κ : List Nat} {metas : List RecordMeta}
    {m : RecordMeta} (h : memBuckets m (bucketsFor κ metas)) : m ∈ metas := by
  obtain ⟨pair, hpair, hx⟩ := h
  unfold bucketsFor at hpair
  obtain ⟨k, _, rfl⟩ := List.mem_map.mp hpair
  exact List.mem_of_mem_filter hx

theorem diversity_select_mem {g : Nat → Nat} {pos : Nat} {κ : List Nat}
    {metas : List RecordMeta} {target : Nat} {x : Nat}
    (h : x ∈ diversity_select g pos κ metas target) :
    ∃ m ∈ metas, m.id = x := by
  unfold diversity_select at h
  dsimp only at h
  rcases roundRobin_mem _ target (totalSize _) _ (Nat.le_refl _) [] x h with
    hx | ⟨m, hm, hid⟩
  · simp at hx
  · exact ⟨m, bucketsFor_mem (prepBuckets_mem g _ _ m hm), hid⟩

theorem diversity_select_len (g : Nat → Nat) (pos : Nat) (κ : List Nat)
    (metas : List RecordMeta) (target : Nat) :
    (diversity_select g pos κ metas target).length ≤ target := by
  unfold diversity_select
  dsimp only
  exact roundRobin_len _ target (totalSize _) _ (Nat.le_refl _) []
    (Nat.zero_le _)

theorem apply_strategy_len (g : Nat → Nat)
    (κsel : List RecordMeta → List Nat) (metas : List RecordMeta)
    (target : Nat) (config : DistillConfig) :
    (apply_strategy g κsel metas target config).length ≤ target := by
  unfold apply_strategy
  dsimp only
  rw [(sortAsc_perm _).length_eq]
  by_cases h1 : config.strategy = ("importance".toList)
  · rw [if_pos h1, List.length_map, List.length_take]
    omega
  · rw [if_neg h1]
    by_cases h2 : config.strategy = ("random".toList)
    · rw [if_pos h2, List.length_take]
      omega
    · rw [if_neg h2]
      exact diversity_select_len _ _ _ _ _

theorem apply_strategy_mem {g : Nat → Nat}
    {κsel : List RecordMeta → List Nat} {metas : List RecordMeta}
    {target : Nat} {config : DistillConfig} {x : Nat}
    (h : x ∈ apply_strategy g κsel metas target config) :
    ∃ m ∈ metas, m.id = x := by
  unfold apply_strategy at h
  dsimp only at h
  rw [(sortAsc_perm _).mem_iff] at h
  by_cases h1 : config.strategy = ("importance".toList)
  · rw [if_pos h1] at h
    obtain ⟨m, hm, rfl⟩ := List.mem_map.mp h
    have := (List.take_sublist _ _).subset hm
    exact ⟨m, (sortByScoreDesc_perm metas).mem_iff.mp this, rfl⟩
  · rw [if_neg h1] at h
    by_cases h2 : config.strategy = ("random".toList)
    · rw [if_pos h2] at h
      have := (List.take_sublist _ _).subset h
      rw [(fyShuffle_perm2 g 0 _).mem_iff] at this
      obtain ⟨m, hm, rfl⟩ := List.mem_map.mp this
      exact ⟨m, hm, rfl⟩
    · rw [if_neg h2] at h
      exact diversity_select_mem h

theorem select_records_len (g : Nat → Nat)
    (κsel : List RecordMeta → List Nat) (catOrder : List Str)
    (metas : List RecordMeta) (config : DistillConfig) :
    (select_records g κsel catOrder metas config).length ≤
      computeTarget config metas.length := by
  unfold select_records
  by_cases hz : metas.length = 0
  · rw [if_pos hz]
    exact Nat.zero_le _
  · rw [if_neg hz]
    dsimp only
    by_cases hb : config.preserve_category_balance = true
    · rw [if_pos hb, List.length_take]
      omega
    · rw [if_neg hb]
      exact apply_strategy_len _ _ _ _ _

theorem select_records_mem {g : Nat → Nat}
    {κsel : List RecordMeta → List Nat} {catOrder : List Str}
    {metas : List RecordMeta} {config : DistillConfig} {x : Nat}
    (h : x ∈ select_records g κsel catOrder metas config) :
    ∃ m ∈ metas, m.id = x := by
  unfold select_records at h
  by_cases hz : metas.length = 0
  · rw [if_pos hz] at h
    simp at h
  · rw [if_neg hz] at h
    dsimp only at h
    by_cases hb : config.preserve_category_balance = true
    · rw [if_pos hb] at h
      have h2 := (List.take_sublist _ _).subset h
      rw [(sortAsc_perm _).mem_iff] at h2
      obtain ⟨lsel, hlsel, hx⟩ := List.mem_flatten.mp h2
      obtain ⟨a, _, rfl⟩ := List.mem_map.mp hlsel
      cases hfind : ((catOrder.map
          (fun c => (c, metas.filter (fun m => catKey m == c)))).find?
            (fun b => b.1 == a.1)) with
      | some b =>
          rw [hfind] at hx
          dsimp only at hx
          obtain ⟨m, hm, rfl⟩ := apply_strategy_mem hx
          have hbmem := List.mem_of_find?_eq_some hfind
          obtain ⟨c, _, rfl⟩ := List.mem_map.mp hbmem
          exact ⟨m, List.mem_of_mem_filter hm, rfl⟩
      | none =>
          rw [hfind] at hx
          simp at hx
    · rw [if_neg hb] at h
      exact apply_strategy_mem h

theorem collectMetas_mem {parseScore : Str → Option Rat}
    {hashTok : Str → Nat} {fm : FieldMap} {strategy : Str}
    {records : List Json} {base : List Nat} {m : RecordMeta}
    (h : m ∈ collectMetas parseScore hashTok fm strategy records base) :
    m.id ∈ base := by
  unfold collectMetas at h
  obtain ⟨p, hp, rfl⟩ := List.mem_map.mp h
  have := (List.mem_filter.mp hp).2
  simpa [build_record_meta] using this

theorem collectMetas_length (parseScore : Str → Option Rat)
    (hashTok : Str → Nat) (fm : FieldMap) (strategy : Str)
    (records : List Json) (base : List Nat)
    (hnodup : base.Nodup) (hsub : ∀ i ∈ base, i < records.length) :
    (collectMetas parseScore hashTok fm strategy records base).length =
      base.length := by
  unfold collectMetas
  rw [List.length_map, ← List.countP_eq_length_filter]
  have h1 : records.enum.countP (fun p => base.contains p.1) =
      (records.enum.map Prod.fst).countP (fun i => base.contains i) := by
    rw [List.countP_map]
    rfl
  rw [h1, List.enum_map_fst, List.countP_eq_length_filter]
  have hnodup2 : ((List.range records.length).filter
      (fun i => base.contains i)).Nodup :=
    (List.nodup_range _).filter _
  have hset : ((List.range records.length).filter
      (fun i => base.contains i)).toFinset = base.toFinset := by
    ext x
    simp only [List.mem_toFinset, List.mem_filter, List.mem_range]
    constructor
    · rintro ⟨_, hx⟩
      simpa using hx
    · intro hx
      exact ⟨hsub x hx, by simpa using hx⟩
  have := List.toFinset_card_of_nodup hnodup2
  rw [hset, List.toFinset_card_of_nodup hnodup] at this
  omega

/-- C7: a distillation preview over duplicate-free base ids below the record
count returns selected and removed lists that are each sorted ascending,
disjoint, together exactly the base id set, and with at most the computed
target many selected ids — for every rng draw stream and every `HashMap`
iteration order. -/
theorem C7_distill_preview_partition (g : Nat → Nat)
    (κsel : List RecordMeta → List Nat) (catOrder : List Str)
    (parseScore : Str → Option Rat) (hashTok : Str → Nat)
    (records : List Json) (base : List Nat) (config : DistillConfig)
    (fm : FieldMap)
    (hnodup : base.Nodup) (hsub : ∀ i ∈ base, i < records.length) :
    List.Sorted (· ≤ ·) (preview_distillation g κsel catOrder parseScore
      hashTok records (some base) config fm).1 ∧
    List.Sorted (· ≤ ·) (preview_distillation g κsel catOrder parseScore
      hashTok records (some base) config fm).2.1 ∧
    (∀ i, i ∈ (preview_distillation g κsel catOrder parseScore hashTok
        records (some base) config fm).1 →
      i ∉ (preview_distillation g κsel catOrder parseScore hashTok records
        (some base) config fm).2.1) ∧
    (∀ i, (i ∈ (preview_distillation g κsel catOrder parseScore hashTok
        records (some base) config fm).1 ∨
       i ∈ (preview_distillation g κsel catOrder parseScore hashTok records
        (some base) config fm).2.1) ↔ i ∈ base) ∧
    (preview_distillation g κsel catOrder parseScore hashTok records
      (some base) config fm).1.length ≤ computeTarget config base.length := by
  unfold preview_distillation
  dsimp only [Option.getD_some]
  have hselmem : ∀ i, i ∈ sortAsc (select_records g κsel catOrder
      (collectMetas parseScore hashTok fm config.strategy records base)
      config) → i ∈ base := by
    intro i hi
    rw [(sortAsc_perm _).mem_iff] at hi
    obtain ⟨m, hm, rfl⟩ := select_records_mem hi
    exact collectMetas_mem hm
  have hremmem : ∀ i, i ∈ sortAsc (base.filter (fun i2 =>
      !(sortAsc (select_records g κsel catOrder
        (collectMetas parseScore hashTok fm config.strategy records base)
        config)).contains i2)) ↔
      i ∈ base ∧ i ∉ sortAsc (select_records g κsel catOrder
        (collectMetas parseScore hashTok fm config.strategy records base)
        config) := by
    intro i
    rw [(sortAsc_perm _).mem_iff, List.mem_filter]
    simp
  refine ⟨sorted_sortAsc _, sorted_sortAsc _, ?_, ?_, ?_⟩
  · intro i hi hrem
    exact ((hremmem i).mp hrem).2 hi
  · intro i
    constructor
    · rintro (hi | hi)
      · exact hselmem i hi
      · exact ((hremmem i).mp hi).1
    · intro hi
      by_cases hs : i ∈ sortAsc (select_records g κsel catOrder
          (collectMetas parseScore hashTok fm config.strategy records base)
          config)
      · exact Or.inl hs
      · exact Or.inr ((hremmem i).mpr ⟨hi, hs⟩)
  · rw [(sortAsc_perm _).length_eq,
      ← collectMetas_length parseScore hashTok fm config.strategy records
        base hnodup hsub]
    exact select_records_len _ _ _ _ _

theorem C7_distill_preview_partition_witness :
    List.Sorted (· ≤ ·) (preview_distillation (fun _ => 0) (fun _ => [])
      [] (fun _ => none) (fun _ => 0) exportRecords (some [0, 1])
      cfgBalanceImportance fmDefault).1 ∧
    (∀ i, (i ∈ (preview_distillation (fun _ => 0) (fun _ => []) []
        (fun _ => none) (fun _ => 0) exportRecords (some [0, 1])
        cfgBalanceImportance fmDefault).1 ∨
      i ∈ (preview_distillation (fun _ => 0) (fun _ => []) []
        (fun _ => none) (fun _ => 0) exportRecords (some [0, 1])
        cfgBalanceImportance fmDefault).2.1) ↔ i ∈ [0, 1]) := by
  have h := C7_distill_preview_partition (fun _ => 0) (fun _ => []) []
    (fun _ => none) (fun _ => 0) exportRecords [0, 1] cfgBalanceImportance
    fmDefault (by decide) (by intro i hi; fin_cases hi <;> decide)
  exact ⟨h.1, h.2.2.2.1⟩

theorem strBytes_append (a b : Str) :
    strBytes (a ++ b) = strBytes a + strBytes b := by
  simp [strBytes]

theorem strBytes_cons (c : Char) (a : Str) :
    strBytes (c :: a) = c.utf8Size + strBytes a := by
  simp [strBytes]

theorem hexDigit_ne_newline (n : Nat) : hexDigit n ≠ '\n' := by
  by_cases h : n < 16
  · interval_cases n <;> decide
  · rw [hexDigit, List.getD_eq_default]
    · decide
    · simp at h ⊢
      omega

theorem digitChar_ne_newline (n : Nat) : digitChar n ≠ '\n' := by
  by_cases h : n < 10
  · interval_cases n <;> decide
  · rw [digitChar, List.getD_eq_default]
    · decide
    · simp at h ⊢
      omega

theorem natDigitsAux_no_newline :
    ∀ (n : Nat) (acc : List Char), '\n' ∉ acc → '\n' ∉ natDigitsAux n acc := by
  intro n
  induction n using Nat.strong_induction_on with
  | _ n ih =>
      intro acc hacc
      match n with
      | 0 =>
          rw [natDigitsAux]
          exact hacc
      | m + 1 =>
          rw [natDigitsAux]
          refine ih ((m + 1) / 10) (Nat.div_lt_self (Nat.succ_pos _) (by omega)) _ ?_
          intro hmem
          rcases List.mem_cons.mp hmem with h | h
          · exact digitChar_ne_newline _ h.symm
          · exact hacc h

theorem natDigits_no_newline (n : Nat) : '\n' ∉ natDigits n := by
  unfold natDigits
  by_cases h : n = 0
  · rw [if_pos h]
    decide
  · rw [if_neg h]
    exact natDigitsAux_no_newline n [] (by simp)

theorem intStr_no_newline (n : Int) : '\n' ∉ intStr n := by
  match n with
  | Int.ofNat m => exact natDigits_no_newline m
  | Int.negSucc m =>
      rw [intStr]
      intro hmem
      rcases List.mem_cons.mp hmem with h | h
      · exact absurd h (by decide)
      · exact natDigits_no_newline (m + 1) h

theorem escapeChar_no_newline (c : Char) : '\n' ∉ escapeChar c := by
  unfold escapeChar
  repeat' split
  case isTrue => decide
  case isTrue => decide
  case isTrue => decide
  case isTrue => decide
  case isTrue => decide
  case isTrue => decide
  case isTrue => decide
  case isTrue =>
    intro hmem
    simp only [List.mem_cons, List.not_mem_nil, or_false] at hmem
    rcases hmem with h | h | h | h | h | h
    · exact absurd h (by decide)
    · exact absurd h (by decide)
    · exact absurd h (by decide)
    · exact absurd h (by decide)
    · exact hexDigit_ne_newline _ h.symm
    · exact hexDigit_ne_newline _ h.symm
  case isFalse h1 h2 h3 h4 h5 h6 h7 h8 =>
    intro hmem
    simp only [List.mem_cons, List.not_mem_nil, or_false] at hmem
    subst hmem
    exact h8 (by decide)

theorem serializeStr_no_newline (s : Str) : '\n' ∉ serializeStr s := by
  unfold serializeStr
  intro hmem
  rcases List.mem_cons.mp hmem with h | h
  · exact absurd h (by decide)
  · rcases List.mem_append.mp h with h2 | h2
    · obtain ⟨piece, hpiece, hmem2⟩ := List.mem_flatten.mp h2
      obtain ⟨c, _, rfl⟩ := List.mem_map.mp hpiece
      exact escapeChar_no_newline c hmem2
    · exact absurd (List.mem_singleton.mp h2) (by decide)

theorem serializeArr_no_newline :
    ∀ (items : List Json), (∀ x ∈ items, '\n' ∉ serializeJson x) →
      '\n' ∉ serializeArr items := by
  intro items
  induction items with
  | nil => intro _; simp [serializeArr]
  | cons x rest ih =>
      intro h
      match rest with
      | [] =>
          rw [serializeArr]
          exact h x (List.mem_cons_self _ _)
      | y :: rest2 =>
          rw [serializeArr]
          intro hmem
          rcases List.mem_append.mp hmem with h2 | h2
          · exact h x (List.mem_cons_self _ _) h2
          · rcases List.mem_cons.mp h2 with h3 | h3
            · exact absurd h3 (by decide)
            · exact ih (fun z hz => h z (List.mem_cons_of_mem _ hz)) h3

theorem serializeObj_no_newline :
    ∀ (entries : List (Str × Json)),
      (∀ kv ∈ entries, '\n' ∉ serializeJson kv.2) →
      '\n' ∉ serializeObj entries := by
  intro entries
  induction entries with
  | nil => intro _; simp [serializeObj]
  | cons kv rest ih =>
      intro h
      obtain ⟨k, v⟩ := kv
      match rest with
      | [] =>
          rw [serializeObj]
          intro hmem
          rcases List.mem_append.mp hmem with h2 | h2
          · exact serializeStr_no_newline k h2
          · rcases List.mem_cons.mp h2 with h3 | h3
            · exact absurd h3 (by decide)
            · exact h (k, v) (List.mem_cons_self _ _) h3
      | e :: rest2 =>
          rw [serializeObj]
          intro hmem
          rcases List.mem_append.mp hmem with h2 | h2
          · rcases List.mem_append.mp h2 with h3 | h3
            · exact serializeStr_no_newline k h3
            · rcases List.mem_cons.mp h3 with h4 | h4
              · exact absurd h4 (by decide)
              · exact h (k, v) (List.mem_cons_self _ _) h4
          · rcases List.mem_cons.mp h2 with h3 | h3
            · exact absurd h3 (by decide)
            · exact ih (fun z hz => h z (List.mem_cons_of_mem _ hz)) h3

theorem serializeJson_no_newline (j : Json) : '\n' ∉ serializeJson j := by
  induction j using jsonInd with
  | hnull => decide
  | hbool b => cases b <;> decide
  | hnum n =>
      rw [serializeJson]
      exact intStr_no_newline n
  | hstr s =>
      rw [serializeJson]
      exact serializeStr_no_newline s
  | harr items ih =>
      rw [serializeJson]
      intro hmem
      rcases List.mem_cons.mp hmem with h | h
      · exact absurd h (by decide)
      · rcases List.mem_append.mp h with h2 | h2
        · exact serializeArr_no_newline items ih h2
        · exact absurd (List.mem_singleton.mp h2) (by decide)
  | hobj entries ih =>
      rw [serializeJson]
      intro hmem
      rcases List.mem_cons.mp hmem with h | h
      · exact absurd h (by decide)
      · rcases List.mem_append.mp h with h2 | h2
        · exact serializeObj_no_newline entries ih h2
        · exact absurd (List.mem_singleton.mp h2) (by decide)

theorem ingest_fold_spec :
    ∀ (inputs : List Json) (acc : IngestAcc),
      (inputs.foldl write_record acc).lines = acc.lines ++ inputs.map recLine ∧
      (inputs.foldl write_record acc).offsets =
        acc.offsets ++ offsetsFrom acc.offset (inputs.map recLine) ∧
      (inputs.foldl write_record acc).count = acc.count + inputs.length := by
  intro inputs
  induction inputs with
  | nil =>
      intro acc
      simp [offsetsFrom]
  | cons v rest ih =>
      intro acc
      rw [List.foldl_cons]
      obtain ⟨ih1, ih2, ih3⟩ := ih (write_record acc v)
      refine ⟨?_, ?_, ?_⟩
      · rw [ih1]
        show (acc.lines ++ [recLine v]) ++ rest.map recLine = _
        rw [List.map_cons, List.append_assoc]
        rfl
      · rw [ih2]
        show (acc.offsets ++ [acc.offset]) ++
          offsetsFrom (acc.offset + strBytes (recLine v) + 1) (rest.map recLine) = _
        rw [List.map_cons, offsetsFrom, List.append_assoc]
        rfl
      · rw [ih3]
        show acc.count + 1 + rest.length = acc.count + (rest.length + 1)
        omega

theorem insertNew_mem_self (l : List Str) (k : Str) : k ∈ insertNew l k := by
  unfold insertNew
  by_cases h : l.contains k
  · rw [if_pos h]
    simpa using h
  · rw [if_neg h]
    simp

theorem insertNew_mono {l : List Str} {j : Str} (k : Str) (h : j ∈ l) :
    j ∈ insertNew l k := by
  unfold insertNew
  by_cases h2 : l.contains k
  · rw [if_pos h2]
    exact h
  · rw [if_neg h2]
    exact List.mem_append_left _ h

theorem foldl_insertNew_mono :
    ∀ (entries : List (Str × Json)) (acc : List Str) (j : Str), j ∈ acc →
      j ∈ entries.foldl (fun ks kv => insertNew ks kv.1) acc := by
  intro entries
  induction entries with
  | nil => intro acc j h; exact h
  | cons kv rest ih =>
      intro acc j h
      rw [List.foldl_cons]
      exact ih _ j (insertNew_mono kv.1 h)

theorem foldl_insertNew_mem :
    ∀ (entries : List (Str × Json)) (acc : List Str) (kv : Str × Json),
      kv ∈ entries → kv.1 ∈ entries.foldl (fun ks kv => insertNew ks kv.1) acc := by
  intro entries
  induction entries with
  | nil => intro acc kv h; simp at h
  | cons e rest ih =>
      intro acc kv h
      rw [List.foldl_cons]
      rcases List.mem_cons.mp h with rfl | h2
      · exact foldl_insertNew_mono rest _ kv.1 (insertNew_mem_self _ _)
      · exact ih _ kv h2

theorem write_record_keys_mono (acc : IngestAcc) (v : Json) {j : Str}
    (h : j ∈ acc.keys) : j ∈ (write_record acc v).keys := by
  unfold write_record
  dsimp only
  match normalize_record v with
  | Json.obj entries => exact foldl_insertNew_mono entries acc.keys j h
  | Json.null => exact h
  | Json.bool _ => exact h
  | Json.num _ => exact h
  | Json.str _ => exact h
  | Json.arr _ => exact h

theorem ingest_keys_mono :
    ∀ (inputs : List Json) (acc : IngestAcc) (j : Str), j ∈ acc.keys →
      j ∈ (inputs.foldl write_record acc).keys := by
  intro inputs
  induction inputs with
  | nil => intro acc j h; exact h
  | cons v rest ih =>
      intro acc j h
      rw [List.foldl_cons]
      exact ih _ j (write_record_keys_mono acc v h)

theorem ingest_keys_mem :
    ∀ (inputs : List Json) (acc : IngestAcc) (v : Json), v ∈ inputs →
      ∀ k ∈ objKeys (normalize_record v),
        k ∈ (inputs.foldl write_record acc).keys := by
  intro inputs
  induction inputs with
  | nil => intro acc v h; simp at h
  | cons w rest ih =>
      intro acc v h k hk
      rw [List.foldl_cons]
      rcases List.mem_cons.mp h with rfl | h2
      · refine ingest_keys_mono rest _ k ?_
        unfold write_record
        dsimp only
        unfold objKeys at hk
        revert hk
        match normalize_record v with
        | Json.obj entries =>
            intro hk
            obtain ⟨kv, hkv, rfl⟩ := List.mem_map.mp hk
            exact foldl_insertNew_mem entries acc.keys kv hkv
        | Json.null => intro hk; simp at hk
        | Json.bool _ => intro hk; simp at hk
        | Json.num _ => intro hk; simp at hk
        | Json.str _ => intro hk; simp at hk
        | Json.arr _ => intro hk; simp at hk
      · exact ih _ v h2 k hk

theorem offsetsFrom_length (lines : List Str) :
    ∀ base, (offsetsFrom base lines).length = lines.length := by
  induction lines with
  | nil => intro base; rfl
  | cons l rest ih =>
      intro base
      rw [offsetsFrom, List.length_cons, List.length_cons, ih]

theorem offsetsFrom_ge (lines : List Str) :
    ∀ base x, x ∈ offsetsFrom base lines → base ≤ x := by
  induction lines with
  | nil => intro base x h; simp [offsetsFrom] at h
  | cons l rest ih =>
      intro base x h
      rw [offsetsFrom] at h
      rcases List.mem_cons.mp h with rfl | h2
      · exact Nat.le_refl _
      · have := ih _ x h2
        omega

theorem offsetsFrom_sorted (lines : List Str) :
    ∀ base, List.Pairwise (· < ·) (offsetsFrom base lines) := by
  induction lines with
  | nil => intro base; simp [offsetsFrom]
  | cons l rest ih =>
      intro base
      rw [offsetsFrom]
      refine List.Pairwise.cons ?_ (ih _)
      intro x hx
      have := offsetsFrom_ge rest _ x hx
      omega

theorem dropBytes_append :
    ∀ (a s : Str) (n : Nat), dropBytes (a ++ s) (strBytes a + n) = dropBytes s n := by
  intro a
  induction a with
  | nil =>
      intro s n
      show dropBytes s (0 + n) = dropBytes s n
      rw [Nat.zero_add]
  | cons c a2 ih =>
      intro s n
      rw [List.cons_append, strBytes_cons]
      have hpos := Char.utf8Size_pos c
      have key : ∀ (k : Nat), k = c.utf8Size + strBytes a2 + n →
          dropBytes (c :: (a2 ++ s)) k = dropBytes s n := by
        intro k hk
        match k with
        | 0 => exact absurd hk (by omega)
        | m + 1 =>
            rw [dropBytes, if_pos (by omega)]
            have heq : m + 1 - c.utf8Size = strBytes a2 + n := by omega
            rw [heq]
            exact ih s n
      exact key _ rfl

theorem takeWhile_line {l : Str} (rest : Str) (h : '\n' ∉ l) :
    ((l ++ '\n' :: rest).takeWhile (fun c => c ≠ '\n')) = l := by
  induction l with
  | nil => simp [List.takeWhile]
  | cons c l2 ih =>
      have hc : c ≠ '\n' := fun hcon => h (hcon ▸ List.mem_cons_self _ _)
      rw [List.cons_append, List.takeWhile_cons]
      rw [if_pos (by simp [hc])]
      rw [ih (fun hmem => h (List.mem_cons_of_mem _ hmem))]

theorem readLineAt_gen :
    ∀ (lines : List Str) (pre : Str),
      (∀ l ∈ lines, '\n' ∉ l) →
      ∀ (i : Nat) (off : Nat) (l : Str),
        (offsetsFrom (strBytes pre) lines).get? i = some off →
        lines.get? i = some l →
        readLineAt (pre ++ storeFile lines) off = some l := by
  intro lines
  induction lines with
  | nil =>
      intro pre _ i off l h1 _
      simp [offsetsFrom] at h1
  | cons l0 rest ih =>
      intro pre hnl i off l h1 h2
      match i with
      | 0 =>
          rw [offsetsFrom] at h1
          obtain rfl : strBytes pre = off := by simpa using h1
          obtain rfl : l0 = l := by simpa using h2
          have hfile : pre ++ storeFile (l0 :: rest) =
              pre ++ (l0 ++ '\n' :: storeFile rest) := by
            simp [storeFile]
          rw [readLineAt, hfile]
          have hdrop := dropBytes_append pre (l0 ++ '\n' :: storeFile rest) 0
          rw [Nat.add_zero] at hdrop
          rw [hdrop]
          have htake := takeWhile_line (storeFile rest)
            (hnl l0 (List.mem_cons_self _ _))
          simp only [dropBytes, Option.map_some']
          rw [htake]
      | i2 + 1 =>
          rw [offsetsFrom] at h1
          rw [List.get?_cons_succ] at h1 h2
          have hpre2 : strBytes (pre ++ (l0 ++ ['\n'])) =
              strBytes pre + strBytes l0 + 1 := by
            rw [strBytes_append, strBytes_append]
            have : strBytes ['\n'] = 1 := by decide
            omega
          have hih := ih (pre ++ (l0 ++ ['\n']))
            (fun l3 hl3 => hnl l3 (List.mem_cons_of_mem _ hl3)) i2 off l
            (by rw [hpre2]; exact h1) h2
          have hfile : pre ++ storeFile (l0 :: rest) =
              (pre ++ (l0 ++ ['\n'])) ++ storeFile rest := by
            simp [storeFile]
          rw [hfile]
          exact hih

/-- C8: ingestion produces exactly one offset per record; the offsets are
strictly increasing; each records the byte position where that record's
serialized line starts in the store file, so seeking there and reading one
line yields exactly the compact serialization of the normalized record —
a JSON object whose keys all appear in the store's sorted field union. -/
theorem C8_ingest_store_invariants (inputs : List Json) :
    (ingest_dataset inputs).offsets.length = (ingest_dataset inputs).recordCount ∧
    (ingest_dataset inputs).lines.length = (ingest_dataset inputs).recordCount ∧
    List.Pairwise (· < ·) (ingest_dataset inputs).offsets ∧
    (∀ i off, (ingest_dataset inputs).offsets.get? i = some off →
      ∃ v entries, inputs.get? i = some v ∧
        normalize_record v = Json.obj entries ∧
        (ingest_dataset inputs).lines.get? i = some (recLine v) ∧
        readLineAt (storeFile (ingest_dataset inputs).lines) off =
          some (recLine v) ∧
        (∀ k ∈ objKeys (normalize_record v), k ∈ (ingest_dataset inputs).fields)) := by
  obtain ⟨hl, ho, hc⟩ := ingest_fold_spec inputs {}
  unfold ingest_dataset
  dsimp only
  rw [hl, ho, hc]
  simp only [List.nil_append]
  refine ⟨?_, ?_, ?_, ?_⟩
  · rw [offsetsFrom_length, List.length_map]
    omega
  · rw [List.length_map]
    omega
  · exact offsetsFrom_sorted _ 0
  · intro i off hoff
    have hi : i < inputs.length := by
      have h3 := List.get?_eq_some.mp hoff
      obtain ⟨hlt, _⟩ := h3
      rw [offsetsFrom_length, List.length_map] at hlt
      exact hlt
    obtain ⟨v, hv⟩ : ∃ v, inputs.get? i = some v :=
      ⟨inputs.get ⟨i, hi⟩, List.get?_eq_get hi⟩
    obtain ⟨entries, hent⟩ : ∃ entries, normalize_record v = Json.obj entries := by
      cases v <;> exact ⟨_, rfl⟩
    have hline : (inputs.map recLine).get? i = some (recLine v) := by
      rw [List.get?_map, hv]
      rfl
    have hnl : ∀ l ∈ inputs.map recLine, '\n' ∉ l := by
      intro l hl2
      obtain ⟨w, _, rfl⟩ := List.mem_map.mp hl2
      exact serializeJson_no_newline _
    refine ⟨v, entries, hv, hent, hline, ?_, ?_⟩
    · have hread := readLineAt_gen (inputs.map recLine) [] hnl i off (recLine v)
        (by simpa using hoff) hline
      simpa using hread
    · intro k hk
      rw [(List.perm_insertionSort _ _).mem_iff]
      exact ingest_keys_mem inputs {} v (List.get?_mem hv) k hk

theorem C8_ingest_store_invariants_witness :
    (ingest_dataset [Json.str ("hi".toList)]).offsets.length =
      (ingest_dataset [Json.str ("hi".toList)]).recordCount ∧
    ∃ v entries, ([Json.str ("hi".toList)] : List Json).get? 0 = some v ∧
      normalize_record v = Json.obj entries ∧
      (ingest_dataset [Json.str ("hi".toList)]).lines.get? 0 = some (recLine v) ∧
      readLineAt (storeFile (ingest_dataset [Json.str ("hi".toList)]).lines) 0 =
        some (recLine v) ∧
      (∀ k ∈ objKeys (normalize_record v),
        k ∈ (ingest_dataset [Json.str ("hi".toList)]).fields) := by
  have h := C8_ingest_store_invariants [Json.str ("hi".toList)]
  exact ⟨h.1, h.2.2.2 0 0 (by decide)⟩

end Datalab
